import Mathlib

/-!
Verification of the LM Studio Harmony Bridge Proxy
(`src/lm_studio_harmony_bridge.py`) against its specification.

The Python source is shallowly embedded over `List Char`.  Text is modelled
as `List Char`; `S s` converts a Lean string literal to that form.  Values
parsed from JSON are modelled by the inductive `PyVal`.  The Python standard
library functions used by the source (`json.loads`, `json.dumps`, `str`,
`hash`, the SSE json encoding of an outgoing chunk) are not part of this
repository; they are passed in as explicit parameters collected in `Ctx`,
and the theorems below quantify over them or instantiate them with fixtures
whenever the property at hand does not depend on them.

The regular expression `CHANNEL_PATTERN` of the source,

  <\|channel\|>(?P<channel>\w+)
  (?:\s+to=(?P<recipient>[^<\s]+))?
  (?:\s*<\|constrain\|>(?P<constrain>\w+))?
  <\|message\|>(?P<content>.*?)(?=(?:<\|channel\|>|\Z))   (DOTALL)

is compiled by hand into the deterministic functions `parsePiece` and
`findRawSegs` below.  The compilation is justified as follows.
* Backtracking never helps: `\w+`, `[^<\s]+`, `\s+`, `\s*` are all runs of
  characters that exclude the first character of whatever literal follows
  (a literal beginning with `<`, or `to=` preceded by mandatory whitespace),
  so only the maximal run can extend to a full match, and a failed optional
  group can only fall back to matching nothing.
* The lazy `(?P<content>.*?)` with lookahead `(?:<\|channel\|>|\Z)` makes
  content run exactly to the next occurrence of `<|channel|>` or to the end.
* `finditer` attempts a match at every position; a match can only start at
  an occurrence of the literal `<|channel|>`, and since that literal has no
  nontrivial border (no proper nonempty prefix equals a suffix), occurrences
  never overlap, and neither the matched header nor the matched content can
  run past the next occurrence.  Hence scanning is equivalent to: split the
  text at every occurrence of `<|channel|>` and attempt `parsePiece` on each
  piece that follows an occurrence, skipping pieces where the match fails.
* `\w` and `\s` are modelled at ASCII granularity (the source only ever
  compares channel keywords and constraint keywords against ASCII literals).
-/

/-- Convert a string literal to the character-list representation. -/
def S (s : String) : List Char := s.data

/-- ASCII model of the Python regex class `\s` and of `str.strip()`
whitespace. -/
def isPySpace (c : Char) : Bool :=
  c == ' ' || c == '\t' || c == '\n' || c == '\r' || c == '\x0b' || c == '\x0c'

/-- ASCII model of the Python regex class `\w`. -/
def isPyWord (c : Char) : Bool :=
  ('a' ≤ c && c ≤ 'z') || ('A' ≤ c && c ≤ 'Z') || ('0' ≤ c && c ≤ '9') || c == '_'

/-- Characters allowed in the recipient group `[^<\s]+`. -/
def isRcpChar (c : Char) : Bool :=
  !(isPySpace c) && c != '<'

/-- Model of Python `str.strip()` (ASCII whitespace). -/
def pyStrip (s : List Char) : List Char :=
  ((s.dropWhile isPySpace).reverse.dropWhile isPySpace).reverse

/-- `buf[a:b]` for `a ≤ b`: the Python slice used by
`_extract_ready_blocks`. -/
def pySlice (s : List Char) (a b : Nat) : List Char :=
  (s.drop a).take (b - a)

/-- `occAt pat s i` holds when `pat` occurs in `s` starting at index `i`. -/
def occAt (pat s : List Char) (i : Nat) : Bool :=
  (List.range pat.length).all fun t => s[i + t]? == pat[t]?

/-- All occurrence positions of `pat` in `s`, in increasing order.  For the
patterns below (which have no nontrivial border) the occurrences are
automatically non-overlapping, so this list coincides with the match
positions produced by `re.finditer`. -/
def occIdxs (pat s : List Char) : List Nat :=
  (List.range (s.length + 1)).filter (occAt pat s)

/-- Substring containment: the Python `in` operator on strings. -/
def hasOcc (pat s : List Char) : Bool :=
  (List.range (s.length + 1)).any (occAt pat s)

/-- `pat` has no self-overlap: no shift `0 < k < pat.length` maps the
pattern onto itself.  Equivalent to: no proper nonempty border. -/
def selfOvFree (pat : List Char) : Bool :=
  (List.range pat.length).all fun k =>
    k == 0 || !((List.range (pat.length - k)).all fun t => pat[t + k]? == pat[t]?)

/-- No occurrence of `pat` can straddle the boundary of `x ++ c`:
no nonempty suffix of `x` is a prefix of `pat`. -/
def straddleFree (x pat : List Char) : Bool :=
  (List.range pat.length).all fun k =>
    k == 0 || !(decide (x.drop (x.length - k) = pat.take k) && decide (k ≤ x.length))

/-- The channel boundary marker. -/
def chMarker : List Char := S "<|channel|>"

/-- The message marker. -/
def msgMarker : List Char := S "<|message|>"

/-- The start marker. -/
def startMarker : List Char := S "<|start|>"

/-- The constrain marker. -/
def constrainMarker : List Char := S "<|constrain|>"

/-- `HarmonyParser.has_harmony`: does the text contain any Harmony token. -/
def has_harmony (t : List Char) : Bool :=
  hasOcc chMarker t || hasOcc msgMarker t || hasOcc startMarker t

/-- Values appearing in parsed JSON bodies (floats are not needed by any
claim and are omitted; the JSON decoder parameter may simply never return
them). -/
inductive PyVal where
  | vNull : PyVal
  | vBool : Bool → PyVal
  | vInt : Int → PyVal
  | vStr : List Char → PyVal
  | vList : List PyVal → PyVal
  | vDict : List (List Char × PyVal) → PyVal

/-- Python truthiness of a `PyVal`. -/
def truthy : PyVal → Bool
  | .vNull => false
  | .vBool b => b
  | .vInt n => n != 0
  | .vStr s => !s.isEmpty
  | .vList l => !l.isEmpty
  | .vDict d => !d.isEmpty

/-- One raw match of `CHANNEL_PATTERN`: the four named groups, with an
absent group represented by `[]` (the source coalesces `None` to `''`). -/
structure RawSeg where
  channel : List Char
  recipient : List Char
  constrain : List Char
  content : List Char
deriving DecidableEq, Repr

/-- Strip a literal prefix, returning the rest on success. -/
def stripPre (pat s : List Char) : Option (List Char) :=
  if s.take pat.length = pat then some (s.drop pat.length) else none

/-- The optional group `(?:\s+to=(?P<recipient>[^<\s]+))?`: from the text
after the channel keyword, the matched recipient (or `[]`) and the rest of
the text. -/
def ppAfterTo (r1 : List Char) : List Char × List Char :=
  let ws := r1.takeWhile isPySpace
  if ws.isEmpty then (([] : List Char), r1) else
    match stripPre (S "to=") (r1.drop ws.length) with
    | none => (([] : List Char), r1)
    | some r =>
      let rc := r.takeWhile isRcpChar
      if rc.isEmpty then (([] : List Char), r1) else (rc, r.drop rc.length)

/-- The optional group `(?:\s*<\|constrain\|>(?P<constrain>\w+))?`: the
matched constraint keyword (or `[]`) and the rest of the text. -/
def ppAfterConstrain (r2 : List Char) : List Char × List Char :=
  let ws2 := r2.takeWhile isPySpace
  match stripPre constrainMarker (r2.drop ws2.length) with
  | none => (([] : List Char), r2)
  | some r =>
    let cs := r.takeWhile isPyWord
    if cs.isEmpty then (([] : List Char), r2) else (cs, r.drop cs.length)

/-- Match the part of `CHANNEL_PATTERN` that follows the `<|channel|>`
literal against one piece of text (which, by the splitting argument in the
header comment, contains no further `<|channel|>` occurrence, so the lazy
content group simply takes everything after `<|message|>`). -/
def parsePiece (p : List Char) : Option RawSeg :=
  let ch := p.takeWhile isPyWord
  if ch.isEmpty then none else
  let to2 := ppAfterTo (p.drop ch.length)
  let cst2 := ppAfterConstrain to2.2
  match stripPre msgMarker cst2.2 with
  | none => none
  | some content => some ⟨ch, to2.1, cst2.1, content⟩

/-- The pieces of a block delimited by the occurrences `ms` of
`<|channel|>`: for consecutive occurrences the text between the end of one
marker and the start of the next, and for the last occurrence the text to
the end of the block. -/
def piecesOf (block : List Char) : List Nat → List (List Char)
  | [] => []
  | [m] => [block.drop (m + chMarker.length)]
  | m :: m2 :: t => pySlice block (m + chMarker.length) m2 :: piecesOf block (m2 :: t)

/-- All matches of `CHANNEL_PATTERN.finditer` over a block (see the header
comment for the compilation argument). -/
def findRawSegs (block : List Char) : List RawSeg :=
  (piecesOf block (occIdxs chMarker block)).filterMap parsePiece

/-- One recognized tool invocation. -/
structure ToolCall where
  name : List Char
  arguments : PyVal

/-- Result record of `HarmonyParser.parse_block`. -/
structure ParseRes where
  final_message : List Char
  analysis : List (List Char)
  tool_calls : List ToolCall
  commentary : List (List Char)

/-- Remove every occurrence of `pat` from `s`, scanning left to right:
Python `s.replace(pat, '')` (fuel-indexed for structural totality). -/
def removeSubAux (pat : List Char) : Nat → List Char → List Char
  | 0, _ => []
  | _ + 1, [] => []
  | fuel + 1, c :: rest =>
    if (c :: rest).take pat.length = pat ∧ pat ≠ [] then
      removeSubAux pat fuel ((c :: rest).drop pat.length)
    else
      c :: removeSubAux pat fuel rest

/-- Python `s.replace(pat, '')`. -/
def removeSub (pat s : List Char) : List Char :=
  removeSubAux pat s.length s

/-- The loop body of `HarmonyParser.parse_block`: dispatch one match into
the result record.  `jdec` stands for `json.loads` (returning `none` on a
`JSONDecodeError`). -/
def segStep (jdec : List Char → Option PyVal) (r : ParseRes) (m : RawSeg) : ParseRes :=
  if pyStrip m.channel = S "final" then
    { r with final_message := r.final_message ++ pyStrip m.content }
  else if pyStrip m.channel = S "analysis" then
    { r with analysis := r.analysis ++ [pyStrip m.content] }
  else if pyStrip m.channel = S "commentary" then
    if pyStrip m.recipient ≠ [] then
      { r with tool_calls := r.tool_calls ++
          [⟨removeSub (S "functions.") (pyStrip m.recipient),
            if pyStrip m.constrain = S "json" then
              if pyStrip m.content ≠ [] then
                match jdec (pyStrip m.content) with
                | some v => v
                | none => PyVal.vDict [(S "raw", PyVal.vStr (pyStrip m.content))]
              else PyVal.vDict []
            else PyVal.vDict [(S "raw", PyVal.vStr (pyStrip m.content))]⟩] }
    else
      { r with commentary := r.commentary ++ [pyStrip m.content] }
  else r

/-- `HarmonyParser.parse_block`. -/
def parse_block (jdec : List Char → Option PyVal) (block : List Char) : ParseRes :=
  (findRawSegs block).foldl (segStep jdec) ⟨[], [], [], []⟩

/-- One decimal digit character. -/
def digCh : Nat → Char
  | 0 => '0' | 1 => '1' | 2 => '2' | 3 => '3' | 4 => '4'
  | 5 => '5' | 6 => '6' | 7 => '7' | 8 => '8' | _ => '9'

/-- Decimal digits of a natural number, fuel-indexed for structural
totality (model of the decimal rendering in a Python f-string). -/
def natDigitsAux : Nat → Nat → List Char
  | 0, _ => []
  | fuel + 1, n =>
    if n < 10 then [digCh n] else natDigitsAux fuel (n / 10) ++ [digCh (n % 10)]

/-- Decimal rendering of a natural number. -/
def natDigits (n : Nat) : List Char := natDigitsAux (n + 1) n

/-- One entry of the OpenAI-style `tool_calls` list synthesized by
`XMLFormatter.tool_calls_to_openai`. -/
structure CallEntry where
  id : List Char
  typ : List Char
  name : List Char
  argumentsStr : List Char
deriving DecidableEq, Repr

/-- An outgoing delta payload: either a `content` delta or a `tool_calls`
delta (the chunk metadata produced by `_make_base_chunk_like` carries no
information relevant to any claim and is omitted). -/
inductive Delta where
  | content : List Char → Delta
  | toolCalls : List CallEntry → Delta
deriving DecidableEq, Repr

/-- The per-instance configuration together with the Python standard
library functions the source calls.  `jdec` is `json.loads` (with `none`
for a decode error), `jdump` is `json.dumps(·, ensure_ascii=False)`,
`pyStr` is `str(·)`, `pyHashAbs` is `abs(hash(·))` (string hashing is
process-seeded in Python, so it is a parameter rather than a function we
could pin down), and `jenc` is the SSE json encoding of an outgoing
chunk. -/
structure Ctx where
  xmlMode : Bool
  jdec : List Char → Option PyVal
  jdump : PyVal → List Char
  pyStr : PyVal → List Char
  pyHashAbs : List Char → Nat
  jenc : Delta → List Char

/-- `XMLFormatter._esc`: the five sequential replacements.  Because `&` is
replaced first and none of the later replacement texts contains a later
pattern character, the sequential replacements coincide with this single
left-to-right pass. -/
def esc (s : List Char) : List Char :=
  s.flatMap fun c =>
    if c = '&' then S "&amp;"
    else if c = '<' then S "&lt;"
    else if c = '>' then S "&gt;"
    else if c = '"' then S "&quot;"
    else if c = '\'' then S "&apos;"
    else [c]

/-- The text rendering of one argument value inside
`XMLFormatter.tool_calls_to_xml`: `None` becomes empty text, a string is
kept, anything else is rendered with `json.dumps`. -/
def xmlArgText (cx : Ctx) : PyVal → List Char
  | .vNull => []
  | .vStr s => s
  | v => cx.jdump v

/-- `XMLFormatter.tool_calls_to_xml`. -/
def tool_calls_to_xml (cx : Ctx) (tcs : List ToolCall) : List Char :=
  List.intercalate [chNl] (tcs.flatMap fun tc =>
    [S "<" ++ tc.name ++ S ">"] ++
    (match tc.arguments with
     | .vDict d => d.map fun kv =>
         S "<" ++ kv.1 ++ S ">" ++ esc (xmlArgText cx kv.2) ++ S "</" ++ kv.1 ++ S ">"
     | a => [esc (cx.pyStr a)]) ++
    [S "</" ++ tc.name ++ S ">"])
where
  chNl : Char := '\n'

/-- `XMLFormatter.tool_calls_to_openai`. -/
def tool_calls_to_openai (cx : Ctx) (tcs : List ToolCall) : List CallEntry :=
  tcs.enum.map fun itc =>
    { id := S "call_" ++ natDigits itc.1 ++ S "_" ++
            natDigits (cx.pyHashAbs itc.2.name % 10000),
      typ := S "function",
      name := itc.2.name,
      argumentsStr :=
        match itc.2.arguments with
        | .vDict d => cx.jdump (.vDict d)
        | a => cx.pyStr a }

/-- The shared per-block emission logic of `_extract_ready_blocks` and
`_flush_harmony_buffer`: parse one block, prefer tool calls over final
text, suppress empty renderings, drop pure analysis/commentary. -/
def processBlock (cx : Ctx) (block : List Char) : Option Delta :=
  let parsed := parse_block cx.jdec block
  if !parsed.tool_calls.isEmpty then
    if cx.xmlMode then
      let xml := tool_calls_to_xml cx parsed.tool_calls
      if pyStrip xml ≠ [] then some (.content xml) else none
    else
      let tcs := tool_calls_to_openai cx parsed.tool_calls
      if !tcs.isEmpty then some (.toolCalls tcs) else none
  else if parsed.final_message ≠ [] then some (.content parsed.final_message)
  else none

/-- `LMStudioBridge._extract_ready_blocks`: find all `<|channel|>` marker
positions; with at most one marker nothing is complete; otherwise process
the text between each adjacent pair of markers as one block, in order, and
retain the suffix of the buffer from the last marker onward. -/
def extract_ready_blocks (cx : Ctx) (buf : List Char) : List Delta × List Char :=
  let markers := occIdxs chMarker buf
  if markers.length ≤ 1 then ([], buf)
  else
    ((List.range (markers.length - 1)).filterMap fun i =>
        processBlock cx (pySlice buf (markers.getD i 0) (markers.getD (i + 1) 0)),
     buf.drop (markers.getLast?.getD 0))

/-- `LMStudioBridge._flush_harmony_buffer`. -/
def flush_harmony_buffer (cx : Ctx) (buf : List Char) : List Delta :=
  if pyStrip buf = [] then []
  else
    match processBlock cx buf with
    | some d => [d]
    | none => []

/-- `HarmonyStreamState`. -/
structure HarmonyStreamState where
  harmony_mode : Bool
  buf : List Char
deriving DecidableEq, Repr

/-- One upstream SSE line, as classified by the loop of
`_stream_transform`: the `data: [DONE]` sentinel; a line that is blank
after stripping; a line not starting with `data: `; a `data: ` line whose
json fails to parse; or a parsed chunk.  For a chunk, `raw` is the full
stripped line text and `content` is `choices[0].delta.content` coalesced
to the empty string (the json layer connecting the two belongs to the
`json` module and the aiohttp framing, which are external). -/
inductive UpLine where
  | done : UpLine
  | blank : UpLine
  | noData : List Char → UpLine
  | badJson : List Char → UpLine
  | chunk : (raw content : List Char) → UpLine
deriving DecidableEq, Repr

/-- One write to the client performed by `_stream_transform`: a raw
pass-through of an upstream line, a transformed chunk carrying a delta, or
the terminal `data: [DONE]` sentinel. -/
inductive OutEv where
  | passRaw : (raw content : List Char) → OutEv
  | emit : Delta → OutEv
  | doneMark : OutEv
deriving DecidableEq, Repr

/-- The body of the `async for` loop of `_stream_transform` for one
non-`[DONE]` line: the outputs written and the updated state. -/
def stepLine (cx : Ctx) (st : HarmonyStreamState) : UpLine → List OutEv × HarmonyStreamState
  | .done => ([], st)
  | .blank => ([], st)
  | .noData _ => ([], st)
  | .badJson _ => ([], st)
  | .chunk raw content =>
    if (content ≠ [] && has_harmony content) || st.harmony_mode then
      let buf1 := if content ≠ [] then st.buf ++ content else st.buf
      ((extract_ready_blocks cx buf1).1.map OutEv.emit,
       ⟨true, (extract_ready_blocks cx buf1).2⟩)
    else
      ([.passRaw raw content], st)

/-- The full loop of `_stream_transform` over the upstream line sequence:
on `data: [DONE]` flush the buffer, emit the sentinel and break; if the
upstream ends (or the iteration raises) before that, the loop just stops —
the `finally` block only closes the response. -/
def runStream (cx : Ctx) (st : HarmonyStreamState) : List UpLine → List OutEv
  | [] => []
  | .done :: _ =>
    (flush_harmony_buffer cx st.buf).map OutEv.emit ++ [.doneMark]
  | l :: ls =>
    (stepLine cx st l).1 ++ runStream cx (stepLine cx st l).2 ls

/-- The bytes written to the client for one output event
(`data: <json>\n\n` framing; a pass-through rewrites the raw line plus the
blank line). -/
def renderEv (cx : Ctx) : OutEv → List Char
  | .passRaw raw _ => raw ++ S "\n\n"
  | .emit d => S "data: " ++ cx.jenc d ++ S "\n\n"
  | .doneMark => S "data: [DONE]\n\n"

/-- The whole byte stream written to the client. -/
def renderAll (cx : Ctx) (evs : List OutEv) : List Char :=
  evs.flatMap (renderEv cx)

/-- The assistant-visible text of one output event: the `content` carried
by the delta that the client will parse out of the written line. -/
def evText : OutEv → List Char
  | .passRaw _ content => content
  | .emit (.content s) => s
  | .emit (.toolCalls _) => []
  | .doneMark => []

/-- The assistant-visible text of the whole client stream: the
concatenation of the delta contents the client receives. -/
def clientText (evs : List OutEv) : List Char :=
  evs.flatMap evText

/-- Python `d.get(key)` with `None` for a missing key; raises
`AttributeError` when the receiver is not a dict. -/
def pyDictGet (v : PyVal) (key : List Char) : Except (List Char) PyVal :=
  match v with
  | .vDict d => .ok ((d.lookup key).getD .vNull)
  | _ => .error (S "AttributeError")

/-- Python `d[key] = val` on a dict (replace in place, else append —
Python dicts preserve insertion order); raises `TypeError` otherwise. -/
def dictSet (d : List (List Char × PyVal)) (key : List Char) (val : PyVal) :
    List (List Char × PyVal) :=
  match d with
  | [] => [(key, val)]
  | kv :: rest =>
    if kv.1 = key then (key, val) :: rest else kv :: dictSet rest key val

/-- `PyVal` version of item assignment. -/
def pySetItem (v : PyVal) (key : List Char) (val : PyVal) :
    Except (List Char) PyVal :=
  match v with
  | .vDict d => .ok (.vDict (dictSet d key val))
  | _ => .error (S "TypeError")

/-- Python `d.pop(key, None)` restricted to its effect on the dict. -/
def dictPop (d : List (List Char × PyVal)) (key : List Char) :
    List (List Char × PyVal) :=
  d.filter fun kv => kv.1 ≠ key

/-- `PyVal` version of `d.pop(key, None)`. -/
def pyPop (v : PyVal) (key : List Char) : Except (List Char) PyVal :=
  match v with
  | .vDict d => .ok (.vDict (dictPop d key))
  | _ => .error (S "AttributeError")

/-- Python `x[0]` as it can arise from `choices[0]` on a decoded json
value: list indexing, string indexing, missing integer key on a dict
(decoded json objects have only string keys), or a type error. -/
def pyIndexZero (v : PyVal) : Except (List Char) PyVal :=
  match v with
  | .vList [] => .error (S "IndexError")
  | .vList (x :: _) => .ok x
  | .vStr [] => .error (S "IndexError")
  | .vStr (c :: _) => .ok (.vStr [c])
  | .vDict _ => .error (S "KeyError")
  | _ => .error (S "TypeError")

/-- Python `xs[0] = val` as it can arise from `data['choices'][0] = choice`
(by that point `choices` is always a truthy list, but the model is
total). -/
def pySetIndexZero (v : PyVal) (val : PyVal) : Except (List Char) PyVal :=
  match v with
  | .vList [] => .error (S "IndexError")
  | .vList (_ :: t) => .ok (.vList (val :: t))
  | _ => .error (S "TypeError")

/-- The `tool_calls` value stored into the message in structured mode:
the list of call entries as a decoded-json-shaped value. -/
def callListVal (entries : List CallEntry) : PyVal :=
  .vList (entries.map fun e =>
    .vDict [(S "id", .vStr e.id),
            (S "type", .vStr e.typ),
            (S "function", .vDict [(S "name", .vStr e.name),
                                   (S "arguments", .vStr e.argumentsStr)])])

/-- Python `HarmonyParser.has_harmony(raw)` applied to an arbitrary
decoded-json value, as its three `in` tests run on it: substring search on
a string; on a list, membership — each element compared for equality with
the marker string, a non-string element comparing unequal without raising;
on a dict, key membership; on any other truthy value (an int or `True`)
`in` raises `TypeError`, since the value is not iterable. -/
def hasHarmonyVal : PyVal → Except (List Char) Bool
  | .vStr s => .ok (has_harmony s)
  | .vList xs => .ok (xs.any fun x =>
      match x with
      | .vStr s => s == chMarker || s == msgMarker || s == startMarker
      | _ => false)
  | .vDict d => .ok (d.any fun kv =>
      kv.1 == chMarker || kv.1 == msgMarker || kv.1 == startMarker)
  | _ => .error (S "TypeError")

/-- The inner `try` block of `_nonstream_transform`: from the decoded
upstream body to the transformed body, with Python exceptions modelled in
`Except`. -/
def transformBody (cx : Ctx) (data : PyVal) : Except (List Char) PyVal := do
  let choicesRaw ← pyDictGet data (S "choices")
  let choices := if truthy choicesRaw then choicesRaw else .vList []
  let choice ←
    if truthy choices then pyIndexZero choices
    else pure (PyVal.vDict [(S "index", .vInt 0), (S "message", .vDict [])])
  let messageRaw ← pyDictGet choice (S "message")
  let message := if truthy messageRaw then messageRaw else PyVal.vDict []
  let contentRaw ← pyDictGet message (S "content")
  let contentVal := if truthy contentRaw then contentRaw else PyVal.vStr []
  let hh ← hasHarmonyVal contentVal
  if hh then
    let raw ←
      match contentVal with
      | .vStr s => pure s
      | _ => Except.error (S "TypeError")
    let parsed := parse_block cx.jdec raw
    let pair ←
      if !parsed.tool_calls.isEmpty then
        if cx.xmlMode then do
          let m1 ← pySetItem message (S "content")
            (.vStr (tool_calls_to_xml cx parsed.tool_calls))
          let m2 ← pyPop m1 (S "tool_calls")
          pure (m2, S "stop")
        else do
          let m1 ← pySetItem message (S "content") .vNull
          let m2 ← pySetItem m1 (S "tool_calls")
            (callListVal (tool_calls_to_openai cx parsed.tool_calls))
          pure (m2, S "tool_calls")
      else do
        let m1 ← pySetItem message (S "content") (.vStr parsed.final_message)
        pure (m1, S "stop")
    let choice1 ← pySetItem choice (S "finish_reason") (.vStr pair.2)
    let choice2 ← pySetItem choice1 (S "message") pair.1
    if !(truthy choices) then
      pySetItem data (S "choices") (.vList [choice2])
    else do
      let cs ← pyDictGet data (S "choices")
      let cs2 ← pySetIndexZero cs choice2
      pySetItem data (S "choices") cs2
  else
    pure data

/-- The response produced by `_nonstream_transform`: the raw upstream
text (when the body fails to decode as json), a json body, or the proxy
error object written with status 500. -/
inductive NSResp where
  | rawText : List Char → NSResp
  | jsonBody : PyVal → NSResp
  | proxyError : List Char → NSResp

/-- `LMStudioBridge._nonstream_transform`.  The input is the upstream
body: `Except.error text` when `lm_resp.json()` raises (with `text` the
raw body text), `Except.ok data` when it decodes to `data`. -/
def nonstream_transform (cx : Ctx) (body : Except (List Char) PyVal) : NSResp :=
  match body with
  | .error text => .rawText text
  | .ok data =>
    match transformBody cx data with
    | .ok v => .jsonBody v
    | .error e => .proxyError e

/-- Discriminator: is the response the raw-text fallback? -/
def NSResp.isRawText : NSResp → Bool
  | .rawText _ => true
  | _ => false

/-- A decoded non-streaming body whose single choice's message carries the
given `content` value. -/
def mkContentBody (content : PyVal) : PyVal :=
  .vDict [(S "choices", .vList [.vDict [(S "index", .vInt 0),
    (S "message", .vDict [(S "content", content)])]])]

/-! ## Occurrence theory for the marker scan -/

theorem occAt_iff {pat s : List Char} {i : Nat} :
    occAt pat s i = true ↔ ∀ t, t < pat.length → s[i + t]? = pat[t]? := by
  unfold occAt
  rw [List.all_eq_true]
  constructor
  · intro h t ht
    have := h t (List.mem_range.mpr ht)
    exact beq_iff_eq.mp this
  · intro h t ht
    exact beq_iff_eq.mpr (h t (List.mem_range.mp ht))

theorem occAt_add_length_le {pat s : List Char} {i : Nat} (hpat : pat ≠ [])
    (h : occAt pat s i = true) : i + pat.length ≤ s.length := by
  have hlen : 0 < pat.length := List.length_pos.mpr hpat
  have ht := occAt_iff.mp h (pat.length - 1) (by omega)
  cases hp : pat[pat.length - 1]? with
  | none =>
    have := List.getElem?_eq_none_iff.mp hp
    omega
  | some a =>
    rw [hp] at ht
    have := (List.getElem?_eq_some.mp ht).1
    omega

theorem occAt_append_left {pat s f : List Char} {i : Nat}
    (h : i + pat.length ≤ s.length) :
    occAt pat (s ++ f) i = occAt pat s i := by
  cases hc : occAt pat s i with
  | false =>
    rw [Bool.eq_false_iff]
    intro hcon
    rw [← Bool.not_eq_true] at hc
    apply hc
    rw [occAt_iff] at hcon ⊢
    intro t ht
    have := hcon t ht
    rwa [List.getElem?_append_left (by omega)] at this
  | true =>
    rw [occAt_iff] at hc ⊢
    intro t ht
    rw [List.getElem?_append_left (by omega)]
    exact hc t ht

theorem occAt_append_left_of_occ {pat s f : List Char} {i : Nat} (hpat : pat ≠ [])
    (h : occAt pat s i = true) : occAt pat (s ++ f) i = true := by
  rwa [occAt_append_left (occAt_add_length_le hpat h)]

theorem occAt_drop {pat s : List Char} {n j : Nat} :
    occAt pat (s.drop n) j = occAt pat s (n + j) := by
  unfold occAt
  congr 1
  funext t
  rw [List.getElem?_drop]
  congr 2
  omega

theorem occAt_append_right {pat s f : List Char} {i : Nat} (h : s.length ≤ i) :
    occAt pat (s ++ f) i = occAt pat f (i - s.length) := by
  unfold occAt
  congr 1
  funext t
  rw [List.getElem?_append_right (by omega)]
  congr 2
  omega

theorem occAt_self {pat f : List Char} : occAt pat (pat ++ f) 0 = true := by
  rw [occAt_iff]
  intro t ht
  rw [Nat.zero_add, List.getElem?_append_left ht]

theorem selfOvFree_iff {pat : List Char} :
    selfOvFree pat = true ↔
      ∀ k, 0 < k → k < pat.length →
        ∃ t, t < pat.length - k ∧ pat[t + k]? ≠ pat[t]? := by
  unfold selfOvFree
  rw [List.all_eq_true]
  constructor
  · intro h k hk0 hk
    have := h k (List.mem_range.mpr hk)
    rcases Bool.or_eq_true _ _ |>.mp this with h0 | hb
    · exact absurd (beq_iff_eq.mp h0) (by omega : k ≠ 0)
    · rw [Bool.not_eq_eq_eq_not, Bool.not_true, ← Bool.not_eq_true, List.all_eq_true] at hb
      push_neg at hb
      obtain ⟨t, htm, hne⟩ := hb
      exact ⟨t, List.mem_range.mp htm, fun he => hne (beq_iff_eq.mpr he)⟩
  · intro h k hkm
    rcases Nat.eq_zero_or_pos k with rfl | hk0
    · simp
    · obtain ⟨t, ht, hne⟩ := h k hk0 (List.mem_range.mp hkm)
      apply Bool.or_eq_true _ _ |>.mpr
      right
      rw [Bool.not_eq_eq_eq_not, Bool.not_true, ← Bool.not_eq_true]
      intro hall
      rw [List.all_eq_true] at hall
      exact hne (beq_iff_eq.mp (hall t (List.mem_range.mpr ht)))

/-- Two occurrences of a self-overlap-free pattern can never overlap. -/
theorem occ_overlap {pat s : List Char} {i j : Nat}
    (hM : selfOvFree pat = true)
    (hi : occAt pat s i = true) (hj : occAt pat s j = true)
    (hij : i < j) (hlt : j < i + pat.length) : False := by
  set k := j - i with hk
  have hk0 : 0 < k := by omega
  have hkl : k < pat.length := by omega
  obtain ⟨t, ht, hne⟩ := selfOvFree_iff.mp hM k hk0 hkl
  apply hne
  have h1 := occAt_iff.mp hi (t + k) (by omega)
  have h2 := occAt_iff.mp hj t (by omega)
  have : i + (t + k) = j + t := by omega
  rw [this] at h1
  rw [← h1, ← h2]

theorem mem_occIdxs {pat s : List Char} {i : Nat} (hpat : pat ≠ []) :
    i ∈ occIdxs pat s ↔ occAt pat s i = true := by
  unfold occIdxs
  rw [List.mem_filter, List.mem_range]
  constructor
  · exact fun h => h.2
  · intro h
    refine ⟨?_, h⟩
    have := occAt_add_length_le hpat h
    have : 0 < pat.length := List.length_pos.mpr hpat
    omega

theorem occIdxs_sorted (pat s : List Char) : (occIdxs pat s).Sorted (· < ·) :=
  (List.pairwise_lt_range _).filter _

theorem occIdxs_nodup (pat s : List Char) : (occIdxs pat s).Nodup :=
  (List.nodup_range _).filter _

theorem not_hasOcc_iff {pat s : List Char} (hpat : pat ≠ []) :
    hasOcc pat s = false ↔ ∀ i, occAt pat s i = false := by
  unfold hasOcc
  constructor
  · intro h i
    rw [← Bool.not_eq_true, List.any_eq_true] at h
    push_neg at h
    cases hc : occAt pat s i with
    | false => rfl
    | true =>
      exfalso
      have hle := occAt_add_length_le hpat hc
      have hl : 0 < pat.length := List.length_pos.mpr hpat
      exact absurd hc (h i (List.mem_range.mpr (by omega)))
  · intro h
    rw [← Bool.not_eq_true, List.any_eq_true]
    push_neg at h
    rintro ⟨i, _, hc⟩
    exact absurd hc (by rw [h i]; simp)

theorem hasOcc_of_occAt {pat s : List Char} {i : Nat} (hpat : pat ≠ [])
    (h : occAt pat s i = true) : hasOcc pat s = true := by
  cases hc : hasOcc pat s with
  | false => exact absurd ((not_hasOcc_iff hpat).mp hc i) (by rw [h]; simp)
  | true => rfl

/-- Strictly sorted lists of naturals with the same members are equal. -/
theorem sorted_mem_ext {l₁ l₂ : List Nat}
    (s₁ : l₁.Sorted (· < ·)) (s₂ : l₂.Sorted (· < ·))
    (h : ∀ a, a ∈ l₁ ↔ a ∈ l₂) : l₁ = l₂ := by
  have n₁ : l₁.Nodup := s₁.imp Nat.ne_of_lt
  have n₂ : l₂.Nodup := s₂.imp Nat.ne_of_lt
  exact List.eq_of_perm_of_sorted ((List.perm_ext_iff_of_nodup n₁ n₂).mpr h) s₁ s₂

theorem occAt_at_marker {M A B : List Char} :
    occAt M (A ++ (M ++ B)) A.length = true := by
  rw [occAt_append_right (Nat.le_refl _), Nat.sub_self]
  exact occAt_self

/-- Occurrence positions of a self-overlap-free marker in `A ++ M ++ B`
with `A` marker-free: the explicit occurrence, then the occurrences inside
`B`, shifted. -/
theorem occIdxs_marker_append {M A B : List Char}
    (hM : selfOvFree M = true) (hMne : M ≠ []) (hA : hasOcc M A = false) :
    occIdxs M (A ++ (M ++ B)) =
      A.length :: (occIdxs M B).map (· + (A.length + M.length)) := by
  have hMlen : 0 < M.length := List.length_pos.mpr hMne
  apply sorted_mem_ext (occIdxs_sorted _ _)
  · rw [List.sorted_cons]
    constructor
    · intro b hb
      rw [List.mem_map] at hb
      obtain ⟨j, _, rfl⟩ := hb
      omega
    · rw [List.Sorted, List.pairwise_map]
      exact (occIdxs_sorted M B).imp (fun h => by omega)
  · intro a
    rw [mem_occIdxs hMne, List.mem_cons, List.mem_map]
    constructor
    · intro ha
      rcases Nat.lt_trichotomy a A.length with hlt | heq | hgt
      · exfalso
        rcases le_or_lt (a + M.length) A.length with hle | hgt2
        · have : occAt M A a = true := by
            have h2 : occAt M (A ++ (M ++ B)) a = occAt M A a :=
              occAt_append_left (by omega)
            rwa [h2] at ha
          exact absurd this (by rw [(not_hasOcc_iff hMne).mp hA a]; simp)
        · exact occ_overlap hM ha occAt_at_marker hlt (by omega)
      · exact Or.inl heq
      · rcases lt_or_ge a (A.length + M.length) with hlt2 | hge
        · exact absurd (occ_overlap hM occAt_at_marker ha hgt hlt2) (by simp)
        · right
          refine ⟨a - (A.length + M.length), ?_, by omega⟩
          rw [mem_occIdxs hMne]
          have h1 : occAt M (A ++ (M ++ B)) a = occAt M (M ++ B) (a - A.length) :=
            occAt_append_right (by omega)
          have h2 : occAt M (M ++ B) (a - A.length) =
              occAt M B (a - A.length - M.length) :=
            occAt_append_right (by omega)
          have : a - A.length - M.length = a - (A.length + M.length) := by omega
          rw [h1, h2, this] at ha
          exact ha
    · rintro (rfl | ⟨j, hj, rfl⟩)
      · exact occAt_at_marker
      · rw [mem_occIdxs hMne] at hj
        have h1 : occAt M (A ++ (M ++ B)) (j + (A.length + M.length)) =
            occAt M (M ++ B) (j + (A.length + M.length) - A.length) :=
          occAt_append_right (by omega)
        have h2 : occAt M (M ++ B) (j + M.length) = occAt M B j := by
          rw [occAt_append_right (by omega)]
          congr 1
          omega
        rw [h1]
        have : j + (A.length + M.length) - A.length = j + M.length := by omega
        rw [this, h2]
        exact hj

/-- Occurrence positions in `A ++ B` with `A` marker-free and `B` either
empty or starting with an occurrence: just the occurrences of `B`,
shifted. -/
theorem occIdxs_left_free {M A B : List Char}
    (hM : selfOvFree M = true) (hMne : M ≠ []) (hA : hasOcc M A = false)
    (hB : B = [] ∨ occAt M B 0 = true) :
    occIdxs M (A ++ B) = (occIdxs M B).map (· + A.length) := by
  have hMlen : 0 < M.length := List.length_pos.mpr hMne
  apply sorted_mem_ext (occIdxs_sorted _ _)
  · rw [List.Sorted, List.pairwise_map]
    exact (occIdxs_sorted M B).imp (fun h => by omega)
  · intro a
    rw [mem_occIdxs hMne, List.mem_map]
    constructor
    · intro ha
      rcases le_or_lt A.length a with hge | hlt
      · refine ⟨a - A.length, ?_, by omega⟩
        rw [mem_occIdxs hMne, ← occAt_append_right hge]
        exact ha
      · exfalso
        rcases le_or_lt (a + M.length) A.length with hle | hgt2
        · have h2 : occAt M (A ++ B) a = occAt M A a :=
            occAt_append_left (by omega)
          rw [h2] at ha
          exact absurd ha (by rw [(not_hasOcc_iff hMne).mp hA a]; simp)
        · rcases hB with rfl | hB0
          · rw [List.append_nil] at ha
            exact absurd ha (by rw [(not_hasOcc_iff hMne).mp hA a]; simp)
          · have hocc : occAt M (A ++ B) A.length = true := by
              rw [occAt_append_right (Nat.le_refl _), Nat.sub_self]
              exact hB0
            exact occ_overlap hM ha hocc hlt (by omega)
    · rintro ⟨j, hj, rfl⟩
      rw [mem_occIdxs hMne] at hj
      rw [occAt_append_right (by omega)]
      have : j + A.length - A.length = j := by omega
      rw [this]
      exact hj

/-- Surgery at an occurrence `m` of the marker inside `s`: appending `f`
keeps every occurrence before `m` and replaces the tail occurrences by
those of `s.drop m ++ f`, shifted. -/
theorem occIdxs_split {M s f : List Char} {m : Nat}
    (hM : selfOvFree M = true) (hMne : M ≠ [])
    (hocc : occAt M s m = true) :
    occIdxs M (s ++ f) =
      (occIdxs M s).filter (· < m) ++ (occIdxs M (s.drop m ++ f)).map (· + m) := by
  have hMlen : 0 < M.length := List.length_pos.mpr hMne
  have hms : m + M.length ≤ s.length := occAt_add_length_le hMne hocc
  have hdropEq : (s ++ f).drop m = s.drop m ++ f :=
    List.drop_append_of_le_length (by omega)
  have hshift : ∀ j, occAt M (s.drop m ++ f) j = occAt M (s ++ f) (m + j) := by
    intro j
    rw [← hdropEq, occAt_drop]
  apply sorted_mem_ext (occIdxs_sorted _ _)
  · rw [List.Sorted, List.pairwise_append]
    refine ⟨(occIdxs_sorted M s).filter _, ?_, ?_⟩
    · rw [List.pairwise_map]
      exact (occIdxs_sorted M (s.drop m ++ f)).imp (fun h => by omega)
    · intro a ha b hb
      rw [List.mem_filter] at ha
      rw [List.mem_map] at hb
      obtain ⟨j, _, rfl⟩ := hb
      have : a < m := by simpa using ha.2
      omega
  · intro a
    rw [mem_occIdxs hMne, List.mem_append, List.mem_filter, List.mem_map]
    constructor
    · intro ha
      rcases le_or_lt m a with hge | hlt
      · right
        refine ⟨a - m, ?_, by omega⟩
        rw [mem_occIdxs hMne, hshift]
        have : m + (a - m) = a := by omega
        rw [this]
        exact ha
      · left
        refine ⟨?_, by simpa using hlt⟩
        rw [mem_occIdxs hMne]
        rcases le_or_lt (a + M.length) m with hle | hgt2
        · have h2 : occAt M (s ++ f) a = occAt M s a :=
            occAt_append_left (by omega)
          rwa [h2] at ha
        · exfalso
          have hocc2 : occAt M (s ++ f) m = true :=
            occAt_append_left_of_occ hMne hocc
          exact occ_overlap hM ha hocc2 hlt (by omega)
    · rintro (⟨hmem, hdec⟩ | ⟨j, hj, rfl⟩)
      · rw [mem_occIdxs hMne] at hmem
        exact occAt_append_left_of_occ hMne hmem
      · rw [mem_occIdxs hMne] at hj
        rw [hshift] at hj
        have : m + j = j + m := by omega
        rwa [this] at hj

theorem occAt_nil {M : List Char} (hMne : M ≠ []) {i : Nat} :
    occAt M ([] : List Char) i = false := by
  cases hc : occAt M [] i with
  | false => rfl
  | true =>
    have h1 := occAt_add_length_le hMne hc
    have h2 : 0 < M.length := List.length_pos.mpr hMne
    rw [List.length_nil] at h1
    exact absurd rfl (by omega : ¬ (0 : Nat) = 0)

theorem occIdxs_nil {M : List Char} (hMne : M ≠ []) :
    occIdxs M ([] : List Char) = [] := by
  apply sorted_mem_ext (occIdxs_sorted _ _) (List.sorted_nil)
  intro a
  rw [mem_occIdxs hMne, occAt_nil hMne]
  simp

theorem hasOcc_nil {M : List Char} (hMne : M ≠ []) :
    hasOcc M ([] : List Char) = false := by
  rw [not_hasOcc_iff hMne]
  intro i
  exact occAt_nil hMne

theorem straddleFree_spec {x M : List Char} (h : straddleFree x M = true)
    {k : Nat} (hk0 : 0 < k) (hk : k < M.length) (hkx : k ≤ x.length) :
    x.drop (x.length - k) ≠ M.take k := by
  unfold straddleFree at h
  rw [List.all_eq_true] at h
  have := h k (List.mem_range.mpr hk)
  rcases Bool.or_eq_true _ _ |>.mp this with h0 | hb
  · exact absurd (beq_iff_eq.mp h0) (by omega : k ≠ 0)
  · intro heq
    rw [Bool.not_eq_eq_eq_not, Bool.not_true, Bool.and_eq_false_iff] at hb
    rcases hb with hb | hb
    · exact absurd heq (by simpa using hb)
    · exact absurd hkx (by simpa using hb)

/-- If `x` is marker-free, no marker suffix straddles out of `x`, and `c`
is marker-free, then `x ++ c` is marker-free. -/
theorem hasOcc_append_of_straddleFree {M x c : List Char} (hMne : M ≠ [])
    (hx : hasOcc M x = false) (hsf : straddleFree x M = true)
    (hc : hasOcc M c = false) : hasOcc M (x ++ c) = false := by
  have hMlen : 0 < M.length := List.length_pos.mpr hMne
  rw [not_hasOcc_iff hMne]
  intro j
  cases hj : occAt M (x ++ c) j with
  | false => rfl
  | true =>
    exfalso
    rcases le_or_lt x.length j with hge | hlt
    · rw [occAt_append_right hge] at hj
      exact absurd hj (by rw [(not_hasOcc_iff hMne).mp hc]; simp)
    · rcases le_or_lt (j + M.length) x.length with hle | hgt
      · rw [occAt_append_left hle] at hj
        exact absurd hj (by rw [(not_hasOcc_iff hMne).mp hx]; simp)
      · set k := x.length - j with hkdef
        have hk0 : 0 < k := by omega
        have hkM : k < M.length := by omega
        have hkx : k ≤ x.length := by omega
        apply straddleFree_spec hsf hk0 hkM hkx
        have hxj : x.length - k = j := by omega
        rw [hxj]
        apply List.ext_getElem?
        intro t
        rcases Nat.lt_or_ge t k with ht | ht
        · have h1 : (x.drop j)[t]? = x[j + t]? := by
            rw [List.getElem?_drop]
          have h2 : x[j + t]? = (x ++ c)[j + t]? := by
            rw [List.getElem?_append_left (by omega)]
          have h3 : (x ++ c)[j + t]? = M[t]? :=
            occAt_iff.mp hj t (by omega)
          have h4 : (M.take k)[t]? = M[t]? := List.getElem?_take_of_lt ht
          rw [h1, h2, h3, h4]
        · have h1 : (x.drop j)[t]? = none := by
            rw [List.getElem?_eq_none_iff]
            rw [List.length_drop]
            omega
          have h2 : (M.take k)[t]? = none := by
            rw [List.getElem?_eq_none_iff]
            rw [List.length_take]
            omega
          rw [h1, h2]

/-- The canonical Harmony buffer built from marker-free pieces. -/
def canonBuf (ps : List (List Char)) : List Char :=
  ps.flatMap fun p => chMarker ++ p

/-- The marker positions of a canonical buffer laid out from offset `a`. -/
def canonPos : Nat → List (List Char) → List Nat
  | _, [] => []
  | a, p :: rest => a :: canonPos (a + chMarker.length + p.length) rest

theorem chMarker_selfOvFree : selfOvFree chMarker = true := by decide

theorem chMarker_ne_nil : chMarker ≠ [] := by decide

theorem canonPos_shift (b : Nat) (ps : List (List Char)) :
    ∀ a, canonPos (a + b) ps = (canonPos a ps).map (· + b) := by
  induction ps with
  | nil => intro a; rfl
  | cons p rest ih =>
    intro a
    show (a + b) :: canonPos (a + b + chMarker.length + p.length) rest = _
    have : a + b + chMarker.length + p.length =
        (a + chMarker.length + p.length) + b := by omega
    rw [this, ih]
    rfl

theorem occIdxs_canonBuf (ps : List (List Char))
    (hps : ∀ p ∈ ps, hasOcc chMarker p = false) :
    occIdxs chMarker (canonBuf ps) = canonPos 0 ps := by
  induction ps with
  | nil =>
    exact occIdxs_nil chMarker_ne_nil
  | cons p rest ih =>
    have hbuf : canonBuf (p :: rest) = [] ++ (chMarker ++ (p ++ canonBuf rest)) := by
      show (chMarker ++ p) ++ canonBuf rest = _
      simp [List.append_assoc]
    rw [hbuf]
    rw [occIdxs_marker_append chMarker_selfOvFree chMarker_ne_nil
          (hasOcc_nil chMarker_ne_nil)]
    rw [occIdxs_left_free chMarker_selfOvFree chMarker_ne_nil
          (hps p (List.mem_cons_self p rest)) ?hB]
    case hB =>
      cases rest with
      | nil => exact Or.inl rfl
      | cons q t =>
        right
        show occAt chMarker ((chMarker ++ q) ++ canonBuf t) 0 = true
        rw [List.append_assoc]
        exact occAt_self
    rw [ih (fun q hq => hps q (List.mem_cons_of_mem p hq))]
    show _ = canonPos 0 (p :: rest)
    have h0 : canonPos 0 (p :: rest) =
        0 :: (canonPos 0 rest).map (· + (chMarker.length + p.length)) := by
      show 0 :: canonPos (0 + chMarker.length + p.length) rest = _
      have : 0 + chMarker.length + p.length =
          0 + (chMarker.length + p.length) := by omega
      rw [this, canonPos_shift]
    rw [h0]
    congr 1
    rw [List.map_map]
    apply List.map_congr_left
    intro j _
    show j + p.length + (List.length ([] : List Char) + chMarker.length) =
      j + (chMarker.length + p.length)
    rw [List.length_nil]
    omega

theorem piecesOf_shift (x y : List Char) (ms : List Nat) :
    piecesOf (x ++ y) (ms.map (· + x.length)) = piecesOf y ms := by
  induction ms with
  | nil => rfl
  | cons m t ih =>
    cases t with
    | nil =>
      show [(x ++ y).drop (m + x.length + chMarker.length)] =
        [y.drop (m + chMarker.length)]
      have : m + x.length + chMarker.length =
          x.length + (m + chMarker.length) := by omega
      rw [this, List.drop_append]
    | cons m2 t2 =>
      show pySlice (x ++ y) (m + x.length + chMarker.length) (m2 + x.length) ::
          piecesOf (x ++ y) ((m2 :: t2).map (· + x.length)) =
        pySlice y (m + chMarker.length) m2 :: piecesOf y (m2 :: t2)
      rw [ih]
      congr 1
      unfold pySlice
      have h1 : m + x.length + chMarker.length =
          x.length + (m + chMarker.length) := by omega
      rw [h1, List.drop_append]
      congr 1
      omega

theorem piecesOf_canonBuf (ps : List (List Char)) :
    piecesOf (canonBuf ps) (canonPos 0 ps) = ps := by
  induction ps with
  | nil => rfl
  | cons p rest ih =>
    have hbuf : canonBuf (p :: rest) = (chMarker ++ p) ++ canonBuf rest := by
      show (chMarker ++ p) ++ canonBuf rest = _
      rfl
    cases rest with
    | nil =>
      show piecesOf (canonBuf [p]) [0] = [p]
      show [(canonBuf [p]).drop (0 + chMarker.length)] = [p]
      have : canonBuf [p] = chMarker ++ p := by
        show (chMarker ++ p) ++ [] = _
        rw [List.append_nil]
      rw [this, Nat.zero_add, List.drop_left]
    | cons q t =>
      show piecesOf (canonBuf (p :: q :: t))
          (0 :: canonPos (0 + chMarker.length + p.length) (q :: t)) = p :: q :: t
      have hshift : canonPos (0 + chMarker.length + p.length) (q :: t) =
          (canonPos 0 (q :: t)).map (· + (chMarker.length + p.length)) := by
        have : 0 + chMarker.length + p.length =
            0 + (chMarker.length + p.length) := by omega
        rw [this, canonPos_shift]
      rw [hshift]
      have hhead : canonPos 0 (q :: t) =
          0 :: canonPos (0 + chMarker.length + q.length) t := rfl
      rw [hhead]
      show pySlice (canonBuf (p :: q :: t)) (0 + chMarker.length)
            (0 + (chMarker.length + p.length)) ::
          piecesOf (canonBuf (p :: q :: t))
            ((0 + (chMarker.length + p.length)) ::
              (canonPos (0 + chMarker.length + q.length) t).map
                (· + (chMarker.length + p.length))) = p :: q :: t
      have hx : (chMarker ++ p).length = chMarker.length + p.length := by
        rw [List.length_append]
      congr 1
      · unfold pySlice
        have h1 : canonBuf (p :: q :: t) = chMarker ++ (p ++ canonBuf (q :: t)) := by
          rw [hbuf, List.append_assoc]
        rw [h1]
        simp only [Nat.zero_add]
        rw [List.drop_left]
        have h2 : chMarker.length + p.length - chMarker.length = p.length := by
          omega
        rw [h2, List.take_left]
      · have hmap : (0 + (chMarker.length + p.length)) ::
            (canonPos (0 + chMarker.length + q.length) t).map
              (· + (chMarker.length + p.length)) =
            (canonPos 0 (q :: t)).map (· + (chMarker ++ p).length) := by
          rw [hhead, hx]
          show _ = (0 + (chMarker.length + p.length)) :: _
          congr 1
        rw [hbuf, hmap, piecesOf_shift]
        exact ih

theorem findRawSegs_canonBuf (ps : List (List Char))
    (hps : ∀ p ∈ ps, hasOcc chMarker p = false) :
    findRawSegs (canonBuf ps) = ps.filterMap parsePiece := by
  unfold findRawSegs
  rw [occIdxs_canonBuf ps hps, piecesOf_canonBuf ps]

/-! ## Facts about `pyStrip` -/

theorem dw_self {p : Char → Bool} {l : List Char}
    (h : ∀ c ∈ l.head?, p c = false) : l.dropWhile p = l := by
  cases l with
  | nil => rfl
  | cons c t =>
    have := h c rfl
    simp [List.dropWhile, this]

theorem head_false_of_dw_self {p : Char → Bool} {l : List Char}
    (h : l.dropWhile p = l) : ∀ c ∈ l.head?, p c = false := by
  cases l with
  | nil => intro c hc; cases hc
  | cons a t =>
    intro c hc
    simp only [List.head?_cons, Option.mem_def, Option.some.injEq] at hc
    subst hc
    cases hp : p a with
    | false => rfl
    | true =>
      exfalso
      rw [List.dropWhile_cons, hp, if_pos rfl] at h
      have hlen : (t.dropWhile p).length ≤ t.length :=
        (List.dropWhile_sublist _).length_le
      rw [h] at hlen
      simp at hlen

theorem head?_dropWhile_false (p : Char → Bool) (l : List Char) :
    ∀ c ∈ (l.dropWhile p).head?, p c = false := by
  induction l with
  | nil => intro c hc; cases hc
  | cons a t ih =>
    intro c hc
    rw [List.dropWhile_cons] at hc
    cases hp : p a with
    | true => rw [hp, if_pos rfl] at hc; exact ih c hc
    | false =>
      rw [hp, if_neg (by simp)] at hc
      have hca : a = c := by simpa using hc
      rw [← hca, hp]

theorem pyStrip_dw (s : List Char) :
    (pyStrip s).dropWhile isPySpace = pyStrip s := by
  unfold pyStrip
  set u := s.dropWhile isPySpace with hu
  set w := u.reverse.dropWhile isPySpace with hw
  apply dw_self
  intro c hc
  rw [List.head?_reverse] at hc
  rcases hwe : w with _ | ⟨a, t⟩
  · rw [hwe] at hc; cases hc
  · have hwne : w ≠ [] := by rw [hwe]; simp
    have hrune : u.reverse ≠ [] := by
      intro h
      apply hwne
      rw [hw, h]
      rfl
    have hdecomp : u.reverse.takeWhile isPySpace ++ w = u.reverse := by
      rw [hw]; exact List.takeWhile_append_dropWhile isPySpace u.reverse
    have hlast : w.getLast? = u.reverse.getLast? := by
      conv_rhs => rw [← hdecomp]
      exact (List.getLast?_append_of_ne_nil _ hwne).symm
    rw [hlast, List.getLast?_reverse] at hc
    exact head?_dropWhile_false isPySpace s c hc

theorem pyStrip_rev_dw (s : List Char) :
    (pyStrip s).reverse.dropWhile isPySpace = (pyStrip s).reverse := by
  unfold pyStrip
  rw [List.reverse_reverse]
  apply dw_self
  exact head?_dropWhile_false isPySpace _

theorem pyStrip_idem (s : List Char) : pyStrip (pyStrip s) = pyStrip s := by
  have h0 : pyStrip (pyStrip s) =
      (((pyStrip s).dropWhile isPySpace).reverse.dropWhile isPySpace).reverse := rfl
  rw [h0, pyStrip_dw, pyStrip_rev_dw, List.reverse_reverse]

theorem pyStrip_append {x y : List Char}
    (hx : pyStrip x = x) (hy : pyStrip y = y) : pyStrip (x ++ y) = x ++ y := by
  have hdwx : x.dropWhile isPySpace = x := by
    conv_lhs => rw [← hx]
    rw [pyStrip_dw, hx]
  have hdwy : y.dropWhile isPySpace = y := by
    conv_lhs => rw [← hy]
    rw [pyStrip_dw, hy]
  have hdwrx : x.reverse.dropWhile isPySpace = x.reverse := by
    conv_lhs => rw [← hx]
    rw [pyStrip_rev_dw, hx]
  have hdwry : y.reverse.dropWhile isPySpace = y.reverse := by
    conv_lhs => rw [← hy]
    rw [pyStrip_rev_dw, hy]
  have step1 : (x ++ y).dropWhile isPySpace = x ++ y := by
    cases hxe : x with
    | nil => rw [List.nil_append]; exact hdwy
    | cons c t =>
      apply dw_self
      intro c' hc'
      have hcc : c = c' := by simpa using hc'
      subst hcc
      have := head_false_of_dw_self (hxe ▸ hdwx)
      exact this c (by simp)
  have step2 : (x ++ y).reverse.dropWhile isPySpace = (x ++ y).reverse := by
    rw [List.reverse_append]
    cases hye : y with
    | nil => rw [List.reverse_nil, List.nil_append]; exact hdwrx
    | cons c t =>
      apply dw_self
      intro c' hc'
      have hyne : y.reverse ≠ [] := by rw [hye]; simp
      rw [← hye] at hc'
      rw [List.head?_append_of_ne_nil _ hyne] at hc'
      exact head_false_of_dw_self hdwry c' hc'
  have h0 : pyStrip (x ++ y) =
      (((x ++ y).dropWhile isPySpace).reverse.dropWhile isPySpace).reverse := rfl
  rw [h0, step1, step2, List.reverse_reverse]

theorem pyStrip_ne_nil {s : List Char} {c : Char}
    (hc : c ∈ s) (hp : isPySpace c = false) : pyStrip s ≠ [] := by
  have key : ∀ (l : List Char), c ∈ l → l.dropWhile isPySpace ≠ [] := by
    intro l
    induction l with
    | nil => intro hl; cases hl
    | cons a t ih =>
      intro hl
      rw [List.dropWhile_cons]
      cases hpa : isPySpace a with
      | false =>
        rw [if_neg (by simp)]
        simp
      | true =>
        rw [if_pos rfl]
        apply ih
        rcases List.mem_cons.mp hl with rfl | h
        · exact absurd hpa (by rw [hp]; simp)
        · exact h
  have h1 : c ∈ s.dropWhile isPySpace := by
    have := List.takeWhile_append_dropWhile (p := isPySpace) (l := s)
    rcases List.mem_append.mp (this ▸ hc) with h | h
    · exact absurd (List.mem_takeWhile_imp h) (by rw [hp]; simp)
    · exact h
  have h2 : c ∈ (s.dropWhile isPySpace).reverse := List.mem_reverse.mpr h1
  unfold pyStrip
  intro hcon
  rw [List.reverse_eq_nil_iff] at hcon
  exact key _ h2 hcon

/-! ## Adjacent marker pairs and the extractor -/

/-- The adjacent pairs `(l[i], l[i+1])` of a list, as walked by the
`for i in range(len(markers) - 1)` loop of `_extract_ready_blocks`. -/
def adjPairs : List Nat → List (Nat × Nat)
  | a :: b :: t => (a, b) :: adjPairs (b :: t)
  | _ => []

theorem adjPairs_eq_zip (l : List Nat) : adjPairs l = l.zip l.tail := by
  match l with
  | [] => rfl
  | [a] => rfl
  | a :: b :: t =>
    show (a, b) :: adjPairs (b :: t) = (a, b) :: (b :: t).zip ((b :: t).tail)
    rw [adjPairs_eq_zip (b :: t)]

theorem adjPairs_mem {l : List Nat} {ab : Nat × Nat} (h : ab ∈ adjPairs l) :
    ab.1 ∈ l ∧ ab.2 ∈ l := by
  match l with
  | [] => cases h
  | [a] => cases h
  | a :: b :: t =>
    rcases List.mem_cons.mp h with rfl | h2
    · exact ⟨List.mem_cons_self _ _, List.mem_cons_of_mem _ (List.mem_cons_self _ _)⟩
    · have := adjPairs_mem h2
      exact ⟨List.mem_cons_of_mem _ this.1, List.mem_cons_of_mem _ this.2⟩

theorem adjPairs_append (x y : List Nat) (hx : x ≠ []) :
    adjPairs (x ++ y) = adjPairs x ++ adjPairs (x.getLast?.getD 0 :: y) := by
  match x with
  | [] => exact absurd rfl hx
  | [a] => rfl
  | a :: b :: t =>
    show (a, b) :: adjPairs ((b :: t) ++ y) = _
    rw [adjPairs_append (b :: t) y (by simp)]
    rfl

theorem adjPairs_map_add (k : Nat) (l : List Nat) :
    adjPairs (l.map (· + k)) = (adjPairs l).map fun ab => (ab.1 + k, ab.2 + k) := by
  match l with
  | [] => rfl
  | [a] => rfl
  | a :: b :: t =>
    show (a + k, b + k) :: adjPairs ((b :: t).map (· + k)) = _
    rw [adjPairs_map_add k (b :: t)]
    rfl

theorem range_getD_filterMap {α : Type} (l : List Nat) (g : Nat → Nat → Option α) :
    (List.range (l.length - 1)).filterMap (fun i => g (l.getD i 0) (l.getD (i + 1) 0)) =
      (adjPairs l).filterMap fun ab => g ab.1 ab.2 := by
  match l with
  | [] => rfl
  | [a] => rfl
  | a :: b :: t =>
    have hlen : (a :: b :: t).length - 1 = ((b :: t).length - 1) + 1 := by
      simp
    rw [hlen, List.range_succ_eq_map, List.filterMap_cons, List.filterMap_map]
    have hcomp :
        ((fun i => g ((a :: b :: t).getD i 0) ((a :: b :: t).getD (i + 1) 0)) ∘ Nat.succ) =
          fun i => g ((b :: t).getD i 0) ((b :: t).getD (i + 1) 0) := by
      funext i
      rfl
    rw [hcomp, range_getD_filterMap (b :: t) g]
    have hadj : adjPairs (a :: b :: t) = (a, b) :: adjPairs (b :: t) := rfl
    rw [hadj, List.filterMap_cons]
    rfl

theorem extract_low (cx : Ctx) (buf : List Char)
    (h : (occIdxs chMarker buf).length ≤ 1) :
    extract_ready_blocks cx buf = ([], buf) := by
  unfold extract_ready_blocks
  rw [if_pos h]

theorem extract_high (cx : Ctx) (buf : List Char)
    (h : 2 ≤ (occIdxs chMarker buf).length) :
    extract_ready_blocks cx buf =
      ((adjPairs (occIdxs chMarker buf)).filterMap
         (fun ab => processBlock cx (pySlice buf ab.1 ab.2)),
       buf.drop ((occIdxs chMarker buf).getLast?.getD 0)) := by
  unfold extract_ready_blocks
  rw [if_neg (by omega)]
  refine Prod.ext_iff.mpr ⟨?_, rfl⟩
  exact range_getD_filterMap (occIdxs chMarker buf)
    (fun x y => processBlock cx (pySlice buf x y))

/-- In a strictly sorted list ending at `m`, the entries below `m` are
exactly the entries except the last. -/
theorem filter_lt_getLast {l : List Nat} (hs : l.Sorted (· < ·)) (hne : l ≠ []) :
    l.filter (· < l.getLast?.getD 0) = l.dropLast := by
  set m := l.getLast?.getD 0 with hm
  have hdecomp : l.dropLast ++ [l.getLast hne] = l := List.dropLast_append_getLast hne
  have hgl : l.getLast hne = m := by
    rw [hm, List.getLast?_eq_getLast l hne]
    rfl
  conv_lhs => rw [← hdecomp]
  rw [List.filter_append]
  have h1 : l.dropLast.filter (· < m) = l.dropLast := by
    apply List.filter_eq_self.mpr
    intro a ha
    have : ∀ b ∈ l.dropLast, ∀ c ∈ [l.getLast hne], b < c := by
      have := hs
      conv at this => rw [← hdecomp]
      rw [List.Sorted, List.pairwise_append] at this
      exact this.2.2
    have hlt := this a ha (l.getLast hne) (by simp)
    rw [hgl] at hlt
    simpa using hlt
  have h2 : [l.getLast hne].filter (· < m) = [] := by
    rw [List.filter_singleton, hgl]
    simp
  rw [h1, h2, List.append_nil]

theorem head_zero_of_sorted_mem {l : List Nat} (hs : l.Sorted (· < ·))
    (h0 : 0 ∈ l) : l = 0 :: l.tail := by
  cases l with
  | nil => cases h0
  | cons a t =>
    rcases List.mem_cons.mp h0 with rfl | hmem
    · rfl
    · exfalso
      rw [List.sorted_cons] at hs
      exact absurd (hs.1 0 hmem) (by omega)

theorem pySlice_append_left {u f : List Char} {a c : Nat} (ha : a ≤ u.length)
    (hc : c ≤ u.length) : pySlice (u ++ f) a c = pySlice u a c := by
  unfold pySlice
  rw [List.drop_append_of_le_length ha]
  rw [List.take_append_of_le_length (by rw [List.length_drop]; omega)]

theorem pySlice_shift {u f : List Char} {m a c : Nat} (hm : m ≤ u.length) :
    pySlice (u ++ f) (a + m) (c + m) = pySlice (u.drop m ++ f) a c := by
  unfold pySlice
  have h1 : c + m - (a + m) = c - a := by omega
  have h2 : (u ++ f).drop (a + m) = ((u ++ f).drop m).drop a := by
    rw [List.drop_drop]
    congr 1
    omega
  rw [h1, h2, List.drop_append_of_le_length hm]

theorem getLastD_mem {l : List Nat} (h : l ≠ []) : l.getLast?.getD 0 ∈ l := by
  rw [List.getLast?_eq_getLast l h]
  exact List.getLast_mem h

theorem getLast?_cons_of_ne_nil {a : Nat} {t : List Nat} (h : t ≠ []) :
    (a :: t).getLast? = t.getLast? := by
  cases t with
  | nil => exact absurd rfl h
  | cons b u => exact List.getLast?_cons_cons

/-- Extraction composes across buffer growth: processing `b ++ f` in one
step produces exactly the outputs of processing `b` and then feeding `f`
to the retained remainder, with the same final remainder.  This is the
fact that makes fragment-boundary splitting harmless once the connection
is buffering. -/
theorem extract_comp (cx : Ctx) (b f : List Char) :
    extract_ready_blocks cx (b ++ f) =
      ((extract_ready_blocks cx b).1 ++
         (extract_ready_blocks cx ((extract_ready_blocks cx b).2 ++ f)).1,
       (extract_ready_blocks cx ((extract_ready_blocks cx b).2 ++ f)).2) := by
  rcases le_or_lt (occIdxs chMarker b).length 1 with hlen | hlen
  · rw [extract_low cx b hlen]
    show extract_ready_blocks cx (b ++ f) =
      ([] ++ (extract_ready_blocks cx (b ++ f)).1, (extract_ready_blocks cx (b ++ f)).2)
    rw [List.nil_append]
  · have hlen2 : 2 ≤ (occIdxs chMarker b).length := hlen
    have hms_ne : occIdxs chMarker b ≠ [] := by
      intro h
      rw [h] at hlen
      simp at hlen
    have hm_mem : (occIdxs chMarker b).getLast?.getD 0 ∈ occIdxs chMarker b :=
      getLastD_mem hms_ne
    have hocc : occAt chMarker b ((occIdxs chMarker b).getLast?.getD 0) = true :=
      (mem_occIdxs chMarker_ne_nil).mp hm_mem
    have hble : (occIdxs chMarker b).getLast?.getD 0 + chMarker.length ≤ b.length :=
      occAt_add_length_le chMarker_ne_nil hocc
    have hmle : (occIdxs chMarker b).getLast?.getD 0 ≤ b.length := by omega
    rw [extract_high cx b hlen2]
    show extract_ready_blocks cx (b ++ f) =
      ((adjPairs (occIdxs chMarker b)).filterMap
          (fun ab => processBlock cx (pySlice b ab.1 ab.2)) ++
        (extract_ready_blocks cx
          (b.drop ((occIdxs chMarker b).getLast?.getD 0) ++ f)).1,
       (extract_ready_blocks cx
          (b.drop ((occIdxs chMarker b).getLast?.getD 0) ++ f)).2)
    set m := (occIdxs chMarker b).getLast?.getD 0 with hm
    set r1 := b.drop m with hr1
    have h0occ : occAt chMarker (r1 ++ f) 0 = true := by
      apply occAt_append_left_of_occ chMarker_ne_nil
      rw [hr1, occAt_drop, Nat.add_zero]
      exact hocc
    have h0mem : 0 ∈ occIdxs chMarker (r1 ++ f) :=
      (mem_occIdxs chMarker_ne_nil).mpr h0occ
    have hms2head : occIdxs chMarker (r1 ++ f) =
        0 :: (occIdxs chMarker (r1 ++ f)).tail :=
      head_zero_of_sorted_mem (occIdxs_sorted _ _) h0mem
    have hsplit : occIdxs chMarker (b ++ f) =
        (occIdxs chMarker b).filter (· < m) ++
          (occIdxs chMarker (r1 ++ f)).map (· + m) :=
      occIdxs_split chMarker_selfOvFree chMarker_ne_nil hocc
    have hfilter : (occIdxs chMarker b).filter (· < m) =
        (occIdxs chMarker b).dropLast :=
      filter_lt_getLast (occIdxs_sorted _ _) hms_ne
    have hdlast : (occIdxs chMarker b).dropLast ++ [m] = occIdxs chMarker b := by
      have h1 := List.dropLast_append_getLast hms_ne
      have h2 : (occIdxs chMarker b).getLast hms_ne = m := by
        rw [hm, List.getLast?_eq_getLast _ hms_ne]
        rfl
      rw [← h2]
      exact h1
    have hbig : occIdxs chMarker (b ++ f) =
        occIdxs chMarker b ++ ((occIdxs chMarker (r1 ++ f)).tail.map (· + m)) := by
      rw [hsplit, hfilter]
      conv_lhs => rw [hms2head]
      show (occIdxs chMarker b).dropLast ++ ((0 + m) ::
        ((occIdxs chMarker (r1 ++ f)).tail.map (· + m))) = _
      rw [Nat.zero_add]
      rw [show (m :: ((occIdxs chMarker (r1 ++ f)).tail.map (· + m))) =
            [m] ++ ((occIdxs chMarker (r1 ++ f)).tail.map (· + m)) from rfl]
      rw [← List.append_assoc, hdlast]
    rcases le_or_lt (occIdxs chMarker (r1 ++ f)).length 1 with hk | hk
    · -- no new complete block: the tail of the new occurrence list is empty
      have htail_nil : (occIdxs chMarker (r1 ++ f)).tail = [] := by
        have hl := congrArg List.length hms2head
        simp only [List.length_cons] at hl
        have : (occIdxs chMarker (r1 ++ f)).tail.length = 0 := by omega
        exact List.length_eq_zero.mp this
      rw [extract_low cx (r1 ++ f) hk]
      show extract_ready_blocks cx (b ++ f) =
        ((adjPairs (occIdxs chMarker b)).filterMap
            (fun ab => processBlock cx (pySlice b ab.1 ab.2)) ++ [], r1 ++ f)
      rw [List.append_nil]
      have hsame : occIdxs chMarker (b ++ f) = occIdxs chMarker b := by
        rw [hbig, htail_nil]
        simp
      rw [extract_high cx (b ++ f) (by rw [hsame]; exact hlen2)]
      have houts : (adjPairs (occIdxs chMarker (b ++ f))).filterMap
            (fun ab => processBlock cx (pySlice (b ++ f) ab.1 ab.2)) =
          (adjPairs (occIdxs chMarker b)).filterMap
            (fun ab => processBlock cx (pySlice b ab.1 ab.2)) := by
        rw [hsame]
        apply List.filterMap_congr
        intro ab hab
        have hmem := adjPairs_mem hab
        have h1 := occAt_add_length_le chMarker_ne_nil
          ((mem_occIdxs chMarker_ne_nil).mp hmem.1)
        have h2 := occAt_add_length_le chMarker_ne_nil
          ((mem_occIdxs chMarker_ne_nil).mp hmem.2)
        rw [pySlice_append_left (by omega) (by omega)]
      have hrem : (b ++ f).drop ((occIdxs chMarker (b ++ f)).getLast?.getD 0) =
          r1 ++ f := by
        rw [hsame, ← hm, hr1, List.drop_append_of_le_length hmle]
      exact Prod.ext_iff.mpr ⟨houts, hrem⟩
    · -- at least one new complete block
      have hk2 : 2 ≤ (occIdxs chMarker (r1 ++ f)).length := hk
      have htail_ne : (occIdxs chMarker (r1 ++ f)).tail ≠ [] := by
        intro h
        have hl := congrArg List.length hms2head
        rw [h] at hl
        simp at hl
        omega
      have hbig2 : 2 ≤ (occIdxs chMarker (b ++ f)).length := by
        rw [hbig, List.length_append]
        omega
      have houts : (adjPairs (occIdxs chMarker (b ++ f))).filterMap
            (fun ab => processBlock cx (pySlice (b ++ f) ab.1 ab.2)) =
          (adjPairs (occIdxs chMarker b)).filterMap
            (fun ab => processBlock cx (pySlice b ab.1 ab.2)) ++
          (adjPairs (occIdxs chMarker (r1 ++ f))).filterMap
            (fun ab => processBlock cx (pySlice (r1 ++ f) ab.1 ab.2)) := by
        rw [hbig, adjPairs_append _ _ hms_ne, ← hm, List.filterMap_append]
        congr 1
        · apply List.filterMap_congr
          intro ab hab
          have hmem := adjPairs_mem hab
          have h1 := occAt_add_length_le chMarker_ne_nil
            ((mem_occIdxs chMarker_ne_nil).mp hmem.1)
          have h2 := occAt_add_length_le chMarker_ne_nil
            ((mem_occIdxs chMarker_ne_nil).mp hmem.2)
          rw [pySlice_append_left (by omega) (by omega)]
        · have hconsmap : m :: (occIdxs chMarker (r1 ++ f)).tail.map (· + m) =
              (occIdxs chMarker (r1 ++ f)).map (· + m) := by
            conv_rhs => rw [hms2head]
            show _ = (0 + m) :: _
            rw [Nat.zero_add]
          rw [hconsmap, adjPairs_map_add, List.filterMap_map]
          apply List.filterMap_congr
          intro ab _
          simp only [Function.comp_apply]
          exact congrArg (processBlock cx) (pySlice_shift hmle)
      have hrem : (b ++ f).drop ((occIdxs chMarker (b ++ f)).getLast?.getD 0) =
          (r1 ++ f).drop ((occIdxs chMarker (r1 ++ f)).getLast?.getD 0) := by
        have hlast : (occIdxs chMarker (b ++ f)).getLast?.getD 0 =
            (occIdxs chMarker (r1 ++ f)).getLast?.getD 0 + m := by
          rw [hbig]
          rw [List.getLast?_append_of_ne_nil _ (by
            intro h
            rw [List.map_eq_nil_iff] at h
            exact htail_ne h)]
          rw [List.getLast?_map]
          conv_rhs => rw [hms2head]
          rw [getLast?_cons_of_ne_nil htail_ne]
          cases hgl : (occIdxs chMarker (r1 ++ f)).tail.getLast? with
          | none => exact absurd (List.getLast?_eq_none_iff.mp hgl) htail_ne
          | some v => rfl
        rw [hlast, Nat.add_comm, ← List.drop_drop, hr1,
          List.drop_append_of_le_length hmle]
      rw [extract_high cx (r1 ++ f) hk2, extract_high cx (b ++ f) hbig2]
      exact Prod.ext_iff.mpr ⟨houts, hrem⟩

/-- In engaged (harmony) mode a chunk line is appended to the buffer and
run through extraction; nothing is passed through raw. -/
theorem stepLine_engaged (cx : Ctx) (st : HarmonyStreamState) (raw c : List Char)
    (h : st.harmony_mode = true) :
    stepLine cx st (.chunk raw c) =
      ((extract_ready_blocks cx (st.buf ++ c)).1.map OutEv.emit,
       ⟨true, (extract_ready_blocks cx (st.buf ++ c)).2⟩) := by
  have hbuf : (if c ≠ [] then st.buf ++ c else st.buf) = st.buf ++ c := by
    split
    · rfl
    · next hc =>
      push_neg at hc
      rw [hc, List.append_nil]
  unfold stepLine
  rw [h]
  show (if (decide (c ≠ []) && has_harmony c || true) = true then
      let buf1 := if c ≠ [] then st.buf ++ c else st.buf
      (List.map OutEv.emit (extract_ready_blocks cx buf1).1,
        (⟨true, (extract_ready_blocks cx buf1).2⟩ : HarmonyStreamState))
    else ([OutEv.passRaw raw c], st)) = _
  rw [Bool.or_true, if_pos rfl, hbuf]

/-- C2 (amended): in engaged mode, feeding two fragments one after the
other produces exactly the outputs and the final state of feeding their
concatenation as a single fragment. -/
theorem stream_split_fragment (cx : Ctx) (st : HarmonyStreamState)
    (h : st.harmony_mode = true) (raw1 raw2 raw12 f1 f2 : List Char) :
    (stepLine cx st (.chunk raw1 f1)).1 ++
        (stepLine cx (stepLine cx st (.chunk raw1 f1)).2 (.chunk raw2 f2)).1 =
      (stepLine cx st (.chunk raw12 (f1 ++ f2))).1 ∧
    (stepLine cx (stepLine cx st (.chunk raw1 f1)).2 (.chunk raw2 f2)).2 =
      (stepLine cx st (.chunk raw12 (f1 ++ f2))).2 := by
  rw [stepLine_engaged cx st raw1 f1 h]
  rw [stepLine_engaged cx st raw12 (f1 ++ f2) h]
  show ((extract_ready_blocks cx (st.buf ++ f1)).1.map OutEv.emit ++
      (stepLine cx ⟨true, (extract_ready_blocks cx (st.buf ++ f1)).2⟩
        (.chunk raw2 f2)).1 =
      (extract_ready_blocks cx (st.buf ++ (f1 ++ f2))).1.map OutEv.emit) ∧
    ((stepLine cx ⟨true, (extract_ready_blocks cx (st.buf ++ f1)).2⟩
        (.chunk raw2 f2)).2 =
      ⟨true, (extract_ready_blocks cx (st.buf ++ (f1 ++ f2))).2⟩)
  rw [stepLine_engaged cx ⟨true, (extract_ready_blocks cx (st.buf ++ f1)).2⟩
      raw2 f2 rfl]
  show ((extract_ready_blocks cx (st.buf ++ f1)).1.map OutEv.emit ++
      (extract_ready_blocks cx
        ((extract_ready_blocks cx (st.buf ++ f1)).2 ++ f2)).1.map OutEv.emit =
      (extract_ready_blocks cx (st.buf ++ (f1 ++ f2))).1.map OutEv.emit) ∧
    ((⟨true, (extract_ready_blocks cx
        ((extract_ready_blocks cx (st.buf ++ f1)).2 ++ f2)).2⟩ :
          HarmonyStreamState) =
      ⟨true, (extract_ready_blocks cx (st.buf ++ (f1 ++ f2))).2⟩)
  have hcomp := extract_comp cx (st.buf ++ f1) f2
  rw [← List.append_assoc, hcomp]
  constructor
  · rw [List.map_append]
  · rfl

theorem runStream_cons_blank (cx : Ctx) (st : HarmonyStreamState) (ls : List UpLine) :
    runStream cx st (.blank :: ls) = runStream cx st ls := rfl

theorem runStream_cons_noData (cx : Ctx) (st : HarmonyStreamState) (raw : List Char)
    (ls : List UpLine) : runStream cx st (.noData raw :: ls) = runStream cx st ls := rfl

theorem runStream_cons_badJson (cx : Ctx) (st : HarmonyStreamState) (raw : List Char)
    (ls : List UpLine) : runStream cx st (.badJson raw :: ls) = runStream cx st ls := rfl

theorem runStream_cons_chunk (cx : Ctx) (st : HarmonyStreamState) (raw c : List Char)
    (ls : List UpLine) :
    runStream cx st (.chunk raw c :: ls) =
      (stepLine cx st (.chunk raw c)).1 ++
        runStream cx (stepLine cx st (.chunk raw c)).2 ls := rfl

theorem runStream_cons_done (cx : Ctx) (st : HarmonyStreamState) (ls : List UpLine) :
    runStream cx st (.done :: ls) =
      (flush_harmony_buffer cx st.buf).map OutEv.emit ++ [.doneMark] := rfl

/-- Once engaged, no later line of the connection is ever passed through
raw. -/
theorem runStream_no_passRaw (cx : Ctx) :
    ∀ (lines : List UpLine) (st : HarmonyStreamState), st.harmony_mode = true →
      ∀ raw c, OutEv.passRaw raw c ∉ runStream cx st lines := by
  intro lines
  induction lines with
  | nil =>
    intro st _ raw c hc
    cases hc
  | cons l ls ih =>
    intro st h raw c hmem
    cases l with
    | done =>
      rw [runStream_cons_done] at hmem
      rcases List.mem_append.mp hmem with h1 | h1
      · obtain ⟨d, _, hd⟩ := List.mem_map.mp h1
        cases hd
      · simp at h1
    | blank =>
      rw [runStream_cons_blank] at hmem
      exact ih st h raw c hmem
    | noData r =>
      rw [runStream_cons_noData] at hmem
      exact ih st h raw c hmem
    | badJson r =>
      rw [runStream_cons_badJson] at hmem
      exact ih st h raw c hmem
    | chunk r ct =>
      rw [runStream_cons_chunk, stepLine_engaged cx st r ct h] at hmem
      rcases List.mem_append.mp hmem with h1 | h1
      · obtain ⟨d, _, hd⟩ := List.mem_map.mp h1
        cases hd
      · exact ih _ rfl raw c h1

/-! ## Test fixtures

Concrete instantiations of the external-library parameters in `Ctx`, used
in closed evaluations.  Every closed theorem below depends only on parts
of the behaviour that are independent of these parameters (the decoder is
never consulted, or only its failure branch is reached, as for
`json.loads` applied to an empty string). -/

/-- A decoder that always reports a decode failure. -/
def jdecNone : List Char → Option PyVal := fun _ => none

/-- Fixture: XML-mode bridge. -/
def ctxX : Ctx := ⟨true, jdecNone, fun _ => [], fun _ => [], fun _ => 0, fun _ => []⟩

/-- Fixture: structured (OpenAI tool_calls) mode bridge. -/
def ctxJ : Ctx := ⟨false, jdecNone, fun _ => [], fun _ => [], fun _ => 0, fun _ => []⟩

/-- The fresh connection state. -/
def st0 : HarmonyStreamState := ⟨false, []⟩

/-- All call identifiers carried by the tool-call deltas of a client
stream. -/
def respIds (evs : List OutEv) : List (List Char) :=
  evs.flatMap fun e =>
    match e with
    | .emit (.toolCalls cs) => cs.map (·.id)
    | _ => []

/-- C1: a `<|channel|>` marker split across two fragments while the
connection is still in pass-through mode is forwarded raw: neither
fragment alone triggers `has_harmony`, both lines are passed through
unchanged, and the client-reassembled text contains the raw marker.  This
evaluates the streaming transformer at the failing input, against both the
spec sentence and the source docstring (never leaks raw Harmony tags). -/
theorem c1_split_marker_reaches_client :
    hasOcc chMarker (clientText (runStream ctxX st0
      [.chunk (S "data: u1") (S "<|chan"),
       .chunk (S "data: u2") (S "nel|>hi"),
       .done])) = true := by decide

/-- C2 counterexample: on an idle connection, a channel marker split
across two fragments is never buffered and never translated — both
fragments are passed through raw, refuting the claim for streams that are
still in pass-through mode when the split occurs. -/
theorem c2_counterexample_idle_split_passes_raw :
    runStream ctxX st0
      [.chunk (S "data: u1") (S "<|chan"),
       .chunk (S "data: u2") (S "nel|>there"),
       .done] =
      [.passRaw (S "data: u1") (S "<|chan"),
       .passRaw (S "data: u2") (S "nel|>there"),
       .doneMark] := by decide

/-- C3 counterexample: when the upstream ends without sending its
`data: [DONE]` line, the bytes written to the client do not terminate with
the sentinel — the stream is simply closed. -/
theorem c3_counterexample_no_done_no_sentinel :
    (S "data: [DONE]\n\n").isSuffixOf
      (renderAll ctxX (runStream ctxX st0
        [.chunk (S "data: u1") (S "hi")])) = false := by decide

/-- C4 counterexample: a response body that decodes to a json value that
is not an object (here the list `[1]`) raises inside the transform block,
and the handler answers with a status-500 proxy error object — not with
the raw upstream text. -/
theorem c4_counterexample_error_object :
    NSResp.isRawText (nonstream_transform ctxX (.ok (.vList [.vInt 1]))) = false ∧
    nonstream_transform ctxX (.ok (.vList [.vInt 1])) =
      .proxyError (S "AttributeError") :=
  ⟨rfl, rfl⟩

/-- C5 counterexample: two blocks of the same stream, each invoking the
tool `search`, are formatted by separate `tool_calls_to_openai` calls, and
both receive the id built from index `0` and the same name hash — the
call identifiers of the response collide. -/
theorem c5_counterexample_duplicate_ids :
    ¬ (respIds (runStream ctxJ st0
        [.chunk (S "data: u1") (S "<|channel|>commentary to=functions.search<|message|>a"),
         .chunk (S "data: u2") (S "<|channel|>commentary to=functions.search<|message|>b"),
         .done])).Pairwise (· ≠ ·) := by decide

/-- C6 counterexample: the trailing block `<|channel|>final<|message|> world`
flushes the text `world`, not `" world"` — the parser strips the content,
so the formatted output is not character-for-character equal to the
segment content. -/
theorem c6_counterexample_strip :
    flush_harmony_buffer ctxX (S "<|channel|>final<|message|> world") =
      [Delta.content (S "world")] ∧ S "world" ≠ S " world" := by
  constructor
  · decide
  · decide

/-- C9 counterexample: a commentary segment with a recipient and a json
constraint whose content is empty gets the empty arguments mapping `{}` —
the code short-circuits on falsy content and neither attempts a decode nor
falls back to the mapping `{raw: ""}` the claim prescribes. -/
theorem c9_counterexample_empty_json_content :
    (parse_block jdecNone
        (S "<|channel|>commentary to=functions.f <|constrain|>json<|message|>")).tool_calls =
      [⟨S "f", PyVal.vDict []⟩] ∧
    PyVal.vDict [] ≠ PyVal.vDict [(S "raw", PyVal.vStr [])] := by
  refine ⟨rfl, ?_⟩
  intro h
  simp at h

/-- C3 (amended): the byte stream written to the client terminates with
the literal `data: [DONE]\n\n` sentinel whenever the upstream sent its own
`data: [DONE]` line; when the upstream ends or errors first, the stream is
closed without the sentinel. -/
theorem runStream_done_ends_with_sentinel (cx : Ctx) :
    ∀ (lines : List UpLine) (st : HarmonyStreamState), UpLine.done ∈ lines →
      List.IsSuffix (S "data: [DONE]\n\n") (renderAll cx (runStream cx st lines)) := by
  intro lines
  induction lines with
  | nil =>
    intro st h
    cases h
  | cons l ls ih =>
    intro st h
    cases l with
    | done =>
      rw [runStream_cons_done]
      unfold renderAll
      rw [List.flatMap_append]
      refine ⟨((flush_harmony_buffer cx st.buf).map OutEv.emit).flatMap (renderEv cx), ?_⟩
      congr 1
    | blank =>
      rw [runStream_cons_blank]
      refine ih st ?_
      rcases List.mem_cons.mp h with h1 | h1
      · cases h1
      · exact h1
    | noData r =>
      rw [runStream_cons_noData]
      refine ih st ?_
      rcases List.mem_cons.mp h with h1 | h1
      · cases h1
      · exact h1
    | badJson r =>
      rw [runStream_cons_badJson]
      refine ih st ?_
      rcases List.mem_cons.mp h with h1 | h1
      · cases h1
      · exact h1
    | chunk r c =>
      rw [runStream_cons_chunk]
      have hmem : UpLine.done ∈ ls := by
        rcases List.mem_cons.mp h with h1 | h1
        · cases h1
        · exact h1
      obtain ⟨pre, hpre⟩ := ih (stepLine cx st (.chunk r c)).2 hmem
      unfold renderAll
      rw [List.flatMap_append]
      refine ⟨((stepLine cx st (.chunk r c)).1).flatMap (renderEv cx) ++ pre, ?_⟩
      rw [List.append_assoc]
      congr 1

/-- C3 witness. -/
theorem runStream_done_ends_with_sentinel_witness :
    List.IsSuffix (S "data: [DONE]\n\n")
      (renderAll ctxX (runStream ctxX st0
        [UpLine.chunk (S "data: u1") (S "hi"), UpLine.done])) :=
  runStream_done_ends_with_sentinel ctxX
    [UpLine.chunk (S "data: u1") (S "hi"), UpLine.done] st0 (by decide)

/-- C8: the extraction step of the stream buffer: with fewer than two
occurrences of `<|channel|>` nothing is emitted and the buffer is kept
unchanged; with `n ≥ 2` occurrences, exactly the `n - 1` texts between
adjacent marker pairs are processed as complete blocks in order, and the
retained buffer is exactly the suffix of the buffer from the last
occurrence onward.  The occurrence list is characterised independently:
its members are exactly the positions where the marker occurs. -/
theorem extract_ready_blocks_spec (cx : Ctx) (buf : List Char) :
    ((occIdxs chMarker buf).length < 2 → extract_ready_blocks cx buf = ([], buf)) ∧
    (2 ≤ (occIdxs chMarker buf).length →
      (extract_ready_blocks cx buf).1 =
        ((occIdxs chMarker buf).zip (occIdxs chMarker buf).tail).filterMap
          (fun ab => processBlock cx (pySlice buf ab.1 ab.2)) ∧
      (extract_ready_blocks cx buf).2 =
        buf.drop ((occIdxs chMarker buf).getLast?.getD 0)) ∧
    (∀ i, i ∈ occIdxs chMarker buf ↔ occAt chMarker buf i = true) := by
  refine ⟨?_, ?_, ?_⟩
  · intro h
    exact extract_low cx buf (by omega)
  · intro h
    rw [extract_high cx buf h]
    exact ⟨by rw [adjPairs_eq_zip], rfl⟩
  · intro i
    exact mem_occIdxs chMarker_ne_nil

/-- C8 witness: a buffer with three markers — both implications discharged
at a concrete input. -/
theorem extract_ready_blocks_spec_witness :
    (extract_ready_blocks ctxX
        (S "<|channel|>final<|message|>a<|channel|>final<|message|>b<|channel|>tail")).1 =
      ((occIdxs chMarker
          (S "<|channel|>final<|message|>a<|channel|>final<|message|>b<|channel|>tail")).zip
        (occIdxs chMarker
          (S "<|channel|>final<|message|>a<|channel|>final<|message|>b<|channel|>tail")).tail).filterMap
        (fun ab => processBlock ctxX
          (pySlice (S "<|channel|>final<|message|>a<|channel|>final<|message|>b<|channel|>tail")
            ab.1 ab.2)) :=
  ((extract_ready_blocks_spec ctxX
      (S "<|channel|>final<|message|>a<|channel|>final<|message|>b<|channel|>tail")).2.1
    (by decide)).1

theorem segStep_strip_inv (jdec : List Char → Option PyVal) (acc : ParseRes)
    (sg : RawSeg)
    (h : pyStrip acc.final_message = acc.final_message ∧
      (∀ a ∈ acc.analysis, pyStrip a = a) ∧
      (∀ cn ∈ acc.commentary, pyStrip cn = cn) ∧
      (∀ tc ∈ acc.tool_calls, ∃ c, pyStrip c = c ∧
        (tc.arguments = PyVal.vDict [(S "raw", PyVal.vStr c)] ∨
         jdec c = some tc.arguments ∨
         (c = [] ∧ tc.arguments = PyVal.vDict [])))) :
    pyStrip (segStep jdec acc sg).final_message = (segStep jdec acc sg).final_message ∧
    (∀ a ∈ (segStep jdec acc sg).analysis, pyStrip a = a) ∧
    (∀ cn ∈ (segStep jdec acc sg).commentary, pyStrip cn = cn) ∧
    (∀ tc ∈ (segStep jdec acc sg).tool_calls, ∃ c, pyStrip c = c ∧
      (tc.arguments = PyVal.vDict [(S "raw", PyVal.vStr c)] ∨
       jdec c = some tc.arguments ∨
       (c = [] ∧ tc.arguments = PyVal.vDict []))) := by
  obtain ⟨h1, h2, h3, h4⟩ := h
  unfold segStep
  split
  · -- final channel
    exact ⟨pyStrip_append h1 (pyStrip_idem _), h2, h3, h4⟩
  · split
    · -- analysis channel
      refine ⟨h1, ?_, h3, h4⟩
      intro a ha
      rcases List.mem_append.mp ha with ha | ha
      · exact h2 a ha
      · rw [List.mem_singleton.mp ha]
        exact pyStrip_idem _
    · split
      · -- commentary channel
        split
        · -- with recipient: a tool call is appended
          refine ⟨h1, h2, h3, ?_⟩
          intro tc htc
          rcases List.mem_append.mp htc with htc | htc
          · exact h4 tc htc
          · rw [List.mem_singleton.mp htc]
            refine ⟨pyStrip sg.content, pyStrip_idem _, ?_⟩
            split
            · -- json constraint
              split
              · -- nonempty content: decode attempt with raw fallback
                cases hj : jdec (pyStrip sg.content) with
                | some v =>
                  right; left
                  rfl
                | none =>
                  left
                  rfl
              · -- empty content: empty mapping
                right; right
                next hempty =>
                  push_neg at hempty
                  exact ⟨hempty, rfl⟩
            · -- no json constraint: raw mapping
              left
              rfl
        · -- commentary without recipient
          refine ⟨h1, h2, ?_, h4⟩
          intro cn hcn
          rcases List.mem_append.mp hcn with hcn | hcn
          · exact h3 cn hcn
          · rw [List.mem_singleton.mp hcn]
            exact pyStrip_idem _
      · -- unknown channel: unchanged
        exact ⟨h1, h2, h3, h4⟩

/-- C10: every piece of text the block parser stores has been stripped of
leading and trailing whitespace: the accumulated final message, each
analysis note, each commentary note; and every tool invocation either
carries the raw-fallback mapping built from a stripped content string, or
the result of decoding a stripped content string, or the empty mapping
produced for empty content. -/
theorem parse_block_strips (jdec : List Char → Option PyVal) (block : List Char) :
    pyStrip (parse_block jdec block).final_message =
      (parse_block jdec block).final_message ∧
    (∀ a ∈ (parse_block jdec block).analysis, pyStrip a = a) ∧
    (∀ cn ∈ (parse_block jdec block).commentary, pyStrip cn = cn) ∧
    (∀ tc ∈ (parse_block jdec block).tool_calls, ∃ c, pyStrip c = c ∧
      (tc.arguments = PyVal.vDict [(S "raw", PyVal.vStr c)] ∨
       jdec c = some tc.arguments ∨
       (c = [] ∧ tc.arguments = PyVal.vDict []))) := by
  have main : ∀ (segs : List RawSeg) (acc : ParseRes),
      (pyStrip acc.final_message = acc.final_message ∧
        (∀ a ∈ acc.analysis, pyStrip a = a) ∧
        (∀ cn ∈ acc.commentary, pyStrip cn = cn) ∧
        (∀ tc ∈ acc.tool_calls, ∃ c, pyStrip c = c ∧
          (tc.arguments = PyVal.vDict [(S "raw", PyVal.vStr c)] ∨
           jdec c = some tc.arguments ∨
           (c = [] ∧ tc.arguments = PyVal.vDict [])))) →
      pyStrip ((segs.foldl (segStep jdec) acc).final_message) =
        (segs.foldl (segStep jdec) acc).final_message ∧
      (∀ a ∈ (segs.foldl (segStep jdec) acc).analysis, pyStrip a = a) ∧
      (∀ cn ∈ (segs.foldl (segStep jdec) acc).commentary, pyStrip cn = cn) ∧
      (∀ tc ∈ (segs.foldl (segStep jdec) acc).tool_calls, ∃ c, pyStrip c = c ∧
        (tc.arguments = PyVal.vDict [(S "raw", PyVal.vStr c)] ∨
         jdec c = some tc.arguments ∨
         (c = [] ∧ tc.arguments = PyVal.vDict []))) := by
    intro segs
    induction segs with
    | nil => intro acc h; exact h
    | cons sg rest ih =>
      intro acc h
      exact ih (segStep jdec acc sg) (segStep_strip_inv jdec acc sg h)
  exact main (findRawSegs block) ⟨[], [], [], []⟩
    ⟨rfl, fun a ha => absurd ha (List.not_mem_nil a),
     fun cn hcn => absurd hcn (List.not_mem_nil cn),
     fun tc htc => absurd htc (List.not_mem_nil tc)⟩

/-- C10 witness: the analysis note parsed from a padded segment is
stripped. -/
theorem parse_block_strips_witness :
    pyStrip (S "thinking") = S "thinking" :=
  (parse_block_strips jdecNone
      (S "<|channel|>analysis<|message|> thinking ")).2.1 (S "thinking") (by decide)

/-- Decimal value of a digit string. -/
def digitsVal (l : List Char) : Nat :=
  l.foldl (fun a c => a * 10 + (c.toNat - 48)) 0

theorem digitsVal_append_digit (l : List Char) (c : Char) :
    digitsVal (l ++ [c]) = 10 * digitsVal l + (c.toNat - 48) := by
  have h : digitsVal (l ++ [c]) = digitsVal l * 10 + (c.toNat - 48) := by
    unfold digitsVal
    rw [List.foldl_append]
    rfl
  rw [h]
  omega

theorem natDigitsAux_val : ∀ (fuel n : Nat), n ≤ fuel →
    digitsVal (natDigitsAux fuel n) = n := by
  intro fuel
  induction fuel with
  | zero =>
    intro n h
    interval_cases n
    rfl
  | succ f ih =>
    intro n h
    unfold natDigitsAux
    split
    · next hlt =>
      have h10 : ∀ k, k < 10 → digitsVal [digCh k] = k := by decide
      exact h10 n hlt
    · next hge =>
      push_neg at hge
      have hdiv : n / 10 ≤ f := by
        have := Nat.div_lt_self (show 0 < n by omega) (show 1 < 10 by omega)
        omega
      rw [digitsVal_append_digit, ih (n / 10) hdiv]
      have h10 : ∀ k, k < 10 → (digCh k).toNat - 48 = k := by decide
      rw [h10 (n % 10) (Nat.mod_lt _ (by omega))]
      omega

theorem natDigits_inj {a b : Nat} (h : natDigits a = natDigits b) : a = b := by
  have ha := natDigitsAux_val (a + 1) a (by omega)
  have hb := natDigitsAux_val (b + 1) b (by omega)
  unfold natDigits at h
  rw [← ha, ← hb, h]

theorem natDigitsAux_no_underscore : ∀ (fuel n : Nat), ∀ c ∈ natDigitsAux fuel n,
    c ≠ '_' := by
  intro fuel
  induction fuel with
  | zero =>
    intro n c hc
    cases hc
  | succ f ih =>
    intro n c hc
    unfold natDigitsAux at hc
    split at hc
    · next h =>
      have h10 : ∀ k, k < 10 → digCh k ≠ '_' := by decide
      rw [List.mem_singleton.mp hc]
      exact h10 n h
    · rcases List.mem_append.mp hc with h1 | h1
      · exact ih (n / 10) c h1
      · have h10 : ∀ k, k < 10 → digCh k ≠ '_' := by decide
        rw [List.mem_singleton.mp h1]
        exact h10 (n % 10) (Nat.mod_lt _ (by omega))

theorem natDigits_no_underscore (n : Nat) : '_' ∉ natDigits n := fun hm =>
  natDigitsAux_no_underscore (n + 1) n '_' hm rfl

/-- Splitting a string at the first underscore is unambiguous when the
left parts are underscore-free. -/
theorem underscore_split : ∀ (a b u v : List Char), ('_' ∉ a) → ('_' ∉ b) →
    a ++ '_' :: u = b ++ '_' :: v → a = b ∧ u = v := by
  intro a
  induction a with
  | nil =>
    intro b u v _ hb h
    cases b with
    | nil =>
      rw [List.nil_append, List.nil_append] at h
      injection h with _ h2
      exact ⟨rfl, h2⟩
    | cons c bt =>
      rw [List.nil_append] at h
      injection h with h1 _
      exact absurd (h1 ▸ List.mem_cons_self c bt) hb
  | cons c atl ih =>
    intro b u v ha hb h
    cases b with
    | nil =>
      rw [List.nil_append] at h
      injection h with h1 _
      exact absurd (h1 ▸ List.mem_cons_self c atl) ha
    | cons d bt =>
      injection h with h1 h2
      obtain ⟨hab, huv⟩ := ih bt u v
        (fun hm => ha (List.mem_cons_of_mem c hm))
        (fun hm => hb (List.mem_cons_of_mem d hm)) h2
      exact ⟨by rw [h1, hab], huv⟩

/-- C5 (amended): within a single invocation of
`tool_calls_to_openai` — one formatted block — the synthesized call
identifiers are pairwise distinct, for every hash function: the decimal
index before the second underscore differs.  (Across separate blocks of
the same response the index restarts at 0, and the counterexample shows
the identifiers then collide.) -/
theorem tool_calls_to_openai_ids_distinct (cx : Ctx) (tcs : List ToolCall) :
    ((tool_calls_to_openai cx tcs).map (fun e => e.id)).Pairwise (· ≠ ·) := by
  unfold tool_calls_to_openai
  rw [List.map_map, List.pairwise_map]
  have henum : (tcs.enum).Pairwise (fun a b => a.1 < b.1) := by
    rw [← List.pairwise_map (f := Prod.fst), List.enum_map_fst]
    exact List.pairwise_lt_range _
  apply henum.imp
  intro a b hab heq
  have heq2 : S "call_" ++
      (natDigits a.1 ++ (['_'] ++ natDigits (cx.pyHashAbs a.2.name % 10000))) =
      S "call_" ++
      (natDigits b.1 ++ (['_'] ++ natDigits (cx.pyHashAbs b.2.name % 10000))) := by
    have h2 := heq
    simp only [Function.comp_apply, List.append_assoc] at h2
    rw [show (S "_" : List Char) = ['_'] from rfl] at h2
    exact h2
  have hsplit := underscore_split (natDigits a.1) (natDigits b.1)
    (natDigits (cx.pyHashAbs a.2.name % 10000))
    (natDigits (cx.pyHashAbs b.2.name % 10000))
    (natDigits_no_underscore _) (natDigits_no_underscore _)
    (List.append_cancel_left heq2)
  exact absurd (natDigits_inj hsplit.1) (by omega)

/-- C7: the idle → engaged transition is one-way.  On an engaged
connection: the state stays engaged after every line; no line is ever
passed through raw; every chunk is buffered (appended to the pending
buffer and run through extraction); and across any remaining line
sequence of the connection no raw pass-through is ever written. -/
theorem harmony_mode_one_way (cx : Ctx) (st : HarmonyStreamState)
    (h : st.harmony_mode = true) :
    (∀ l, (stepLine cx st l).2.harmony_mode = true) ∧
    (∀ l raw c, OutEv.passRaw raw c ∉ (stepLine cx st l).1) ∧
    (∀ raw c, stepLine cx st (.chunk raw c) =
      ((extract_ready_blocks cx (st.buf ++ c)).1.map OutEv.emit,
       ⟨true, (extract_ready_blocks cx (st.buf ++ c)).2⟩)) ∧
    (∀ lines raw c, OutEv.passRaw raw c ∉ runStream cx st lines) := by
  refine ⟨?_, ?_, ?_, ?_⟩
  · intro l
    cases l with
    | chunk r c => rw [stepLine_engaged cx st r c h]
    | done => exact h
    | blank => exact h
    | noData r => exact h
    | badJson r => exact h
  · intro l raw c hmem
    cases l with
    | chunk r ct =>
      rw [stepLine_engaged cx st r ct h] at hmem
      obtain ⟨d, _, hd⟩ := List.mem_map.mp hmem
      cases hd
    | done => cases hmem
    | blank => cases hmem
    | noData r => cases hmem
    | badJson r => cases hmem
  · intro raw c
    exact stepLine_engaged cx st raw c h
  · intro lines
    exact runStream_no_passRaw cx lines st h

/-- C7 witness. -/
theorem harmony_mode_one_way_witness :
    (stepLine ctxX ⟨true, S "b"⟩ (UpLine.chunk (S "u") (S "hello"))).2.harmony_mode = true ∧
    OutEv.passRaw (S "u") (S "hello") ∉
      runStream ctxX ⟨true, S "b"⟩ [UpLine.chunk (S "u") (S "hello")] :=
  ⟨(harmony_mode_one_way ctxX ⟨true, S "b"⟩ rfl).1 _,
   (harmony_mode_one_way ctxX ⟨true, S "b"⟩ rfl).2.2.2 _ _ _⟩

/-- C2 witness: a split marker fed to an engaged connection. -/
theorem stream_split_fragment_witness :
    (stepLine ctxX ⟨true, []⟩ (.chunk (S "u1") (S "<|chan"))).1 ++
        (stepLine ctxX (stepLine ctxX ⟨true, []⟩ (.chunk (S "u1") (S "<|chan"))).2
          (.chunk (S "u2") (S "nel|>final<|message|>ok"))).1 =
      (stepLine ctxX ⟨true, []⟩
        (.chunk (S "u12") (S "<|chan" ++ S "nel|>final<|message|>ok"))).1 ∧
    (stepLine ctxX (stepLine ctxX ⟨true, []⟩ (.chunk (S "u1") (S "<|chan"))).2
        (.chunk (S "u2") (S "nel|>final<|message|>ok"))).2 =
      (stepLine ctxX ⟨true, []⟩
        (.chunk (S "u12") (S "<|chan" ++ S "nel|>final<|message|>ok"))).2 :=
  stream_split_fragment ctxX ⟨true, []⟩ rfl (S "u1") (S "u2") (S "u12")
    (S "<|chan") (S "nel|>final<|message|>ok")

/-- C4 (amended): a body that fails json decoding is surfaced as the raw
upstream text, but an unexpected exception inside the transform step
produces a status-500 proxy error object, not the raw text.  A truthy
non-string content on which Python's `in` raises nothing — a list or a
dict — is not an error when it holds no marker: the body is returned
unchanged; when it does hold a marker element, the string operations on it
do raise, and the proxy error object is returned. -/
theorem nonstream_transform_error_paths (cx : Ctx) :
    (∀ text, nonstream_transform cx (.error text) = .rawText text) ∧
    (∀ data e, transformBody cx data = .error e →
      nonstream_transform cx (.ok data) = .proxyError e) ∧
    nonstream_transform cx (.ok (mkContentBody (.vList [.vStr (S "x")]))) =
      .jsonBody (mkContentBody (.vList [.vStr (S "x")])) ∧
    nonstream_transform cx (.ok (mkContentBody (.vList [.vStr chMarker]))) =
      .proxyError (S "TypeError") := by
  refine ⟨?_, ?_, ?_, ?_⟩
  · intro text
    rfl
  · intro data e h
    show (match transformBody cx data with
      | Except.ok v => NSResp.jsonBody v
      | Except.error e => NSResp.proxyError e) = NSResp.proxyError e
    rw [h]
  · rfl
  · rfl

/-- C4 witness. -/
theorem nonstream_transform_error_paths_witness :
    nonstream_transform ctxX (.ok (.vList [.vInt 1])) =
      .proxyError (S "AttributeError") :=
  (nonstream_transform_error_paths ctxX).2.1 (.vList [.vInt 1])
    (S "AttributeError") rfl

theorem takeWhile_append_of_ne {p : Char → Bool} {x : List Char} (y : List Char)
    (h : x.takeWhile p ≠ x) : (x ++ y).takeWhile p = x.takeWhile p := by
  induction x with
  | nil => exact absurd rfl h
  | cons a t ih =>
    rw [List.cons_append, List.takeWhile_cons, List.takeWhile_cons]
    cases hp : p a with
    | false => simp
    | true =>
      rw [if_pos rfl, if_pos rfl]
      rw [List.takeWhile_cons, hp, if_pos rfl] at h
      have ht : t.takeWhile p ≠ t := fun hc => h (by rw [hc])
      rw [ih ht]


theorem stripPre_msg_exact (c : List Char) :
    stripPre msgMarker (S "<|message|>" ++ c) = some c := by
  unfold stripPre
  rw [show msgMarker = S "<|message|>" from rfl]
  rw [List.take_left, if_pos rfl, List.drop_left]

theorem stripPre_constrain_msg (c : List Char) :
    stripPre constrainMarker (S "<|message|>" ++ c) = none := by
  unfold stripPre
  rw [if_neg]
  intro heq
  have h25 : (List.take constrainMarker.length (S "<|message|>" ++ c))[2]? =
      constrainMarker[2]? := by rw [heq]
  rw [List.getElem?_take_of_lt (by decide : (2:Nat) < constrainMarker.length)] at h25
  rw [List.getElem?_append_left (by decide : (2:Nat) < (S "<|message|>").length)] at h25
  exact absurd h25 (by decide)

theorem ppAfterTo_msg (c : List Char) :
    ppAfterTo (S "<|message|>" ++ c) = ([], S "<|message|>" ++ c) := by
  have h3 : (S "<|message|>" ++ c).takeWhile isPySpace = [] := by
    rw [takeWhile_append_of_ne c (by decide)]
    decide
  simp only [ppAfterTo, h3]
  rfl

theorem ppAfterConstrain_msg (c : List Char) :
    ppAfterConstrain (S "<|message|>" ++ c) = ([], S "<|message|>" ++ c) := by
  have h3 : (S "<|message|>" ++ c).takeWhile isPySpace = [] := by
    rw [takeWhile_append_of_ne c (by decide)]
    decide
  simp only [ppAfterConstrain, h3, List.length_nil, List.drop_zero,
    stripPre_constrain_msg c]

theorem parsePiece_final (c : List Char) :
    parsePiece (S "final<|message|>" ++ c) = some ⟨S "final", [], [], c⟩ := by
  have h1 : (S "final<|message|>" ++ c).takeWhile isPyWord = S "final" := by
    rw [takeWhile_append_of_ne c (by decide)]
    decide
  have h2 : (S "final<|message|>" ++ c).drop (S "final").length =
      S "<|message|>" ++ c := by
    rw [List.drop_append_of_le_length (by decide)]
    rfl
  simp only [parsePiece, h1, h2, ppAfterTo_msg, ppAfterConstrain_msg,
    stripPre_msg_exact c]
  rfl

theorem ppAfterTo_tool (tail : List Char) (c : List Char)
    (htail : (S "functions.f" ++ tail ++ c).takeWhile isRcpChar = S "functions.f")
    (hsplit : (S " to=functions.f" ++ tail ++ c) =
      S " to=" ++ (S "functions.f" ++ tail ++ c)) :
    ppAfterTo (S " to=functions.f" ++ tail ++ c) = (S "functions.f", tail ++ c) := by
  have h3 : (S " to=functions.f" ++ tail ++ c).takeWhile isPySpace = S " " := by
    rw [hsplit, takeWhile_append_of_ne _ (by decide)]
    decide
  have h4 : (S " to=functions.f" ++ tail ++ c).drop (S " ").length =
      S "to=" ++ (S "functions.f" ++ tail ++ c) := by
    rw [hsplit, List.drop_append_of_le_length (by decide)]
    rw [show (S " to=" : List Char).drop (S " ").length = S "to=" from by decide]
  have h5 : stripPre (S "to=") (S "to=" ++ (S "functions.f" ++ tail ++ c)) =
      some (S "functions.f" ++ tail ++ c) := by
    unfold stripPre
    rw [List.take_left, if_pos rfl, List.drop_left]
  have h7 : (S "functions.f" ++ tail ++ c).drop (S "functions.f").length =
      tail ++ c := by
    rw [List.append_assoc, List.drop_left]
  simp only [ppAfterTo, h3, h4, h5, htail, h7]
  rw [if_neg (by decide), if_neg (by decide)]

theorem ppAfterConstrain_json (c : List Char) :
    ppAfterConstrain (S " <|constrain|>json<|message|>" ++ c) =
      (S "json", S "<|message|>" ++ c) := by
  have hsplit : (S " <|constrain|>json<|message|>" ++ c) =
      S " " ++ (S "<|constrain|>json<|message|>" ++ c) := by
    rw [show (S " <|constrain|>json<|message|>" : List Char) =
      S " " ++ S "<|constrain|>json<|message|>" from by decide]
    rw [List.append_assoc]
  have h8 : (S " <|constrain|>json<|message|>" ++ c).takeWhile isPySpace =
      S " " := by
    rw [takeWhile_append_of_ne c (by decide)]
    decide
  have h9 : (S " <|constrain|>json<|message|>" ++ c).drop (S " ").length =
      S "<|constrain|>" ++ (S "json<|message|>" ++ c) := by
    rw [hsplit, List.drop_append_of_le_length (by decide)]
    rw [show (S " " : List Char).drop (S " ").length = [] from by decide]
    rw [List.nil_append]
    rw [show (S "<|constrain|>json<|message|>" : List Char) =
      S "<|constrain|>" ++ S "json<|message|>" from by decide]
    rw [List.append_assoc]
  have h10 : stripPre constrainMarker
      (S "<|constrain|>" ++ (S "json<|message|>" ++ c)) =
      some (S "json<|message|>" ++ c) := by
    unfold stripPre
    rw [show constrainMarker = S "<|constrain|>" from rfl]
    rw [List.take_left, if_pos rfl, List.drop_left]
  have h11 : (S "json<|message|>" ++ c).takeWhile isPyWord = S "json" := by
    rw [takeWhile_append_of_ne c (by decide)]
    decide
  have h12 : (S "json<|message|>" ++ c).drop (S "json").length =
      S "<|message|>" ++ c := by
    rw [List.drop_append_of_le_length (by decide)]
    rfl
  simp only [ppAfterConstrain, h8, h9, h10, h11, h12]
  rw [if_neg (by decide)]

theorem parsePiece_tool_json (c : List Char) :
    parsePiece (S "commentary to=functions.f <|constrain|>json<|message|>" ++ c) =
      some ⟨S "commentary", S "functions.f", S "json", c⟩ := by
  have h1 : (S "commentary to=functions.f <|constrain|>json<|message|>" ++ c).takeWhile
      isPyWord = S "commentary" := by
    rw [takeWhile_append_of_ne c (by decide)]
    decide
  have h2 : (S "commentary to=functions.f <|constrain|>json<|message|>" ++ c).drop
      (S "commentary").length =
      S " to=functions.f" ++ S " <|constrain|>json<|message|>" ++ c := by
    rw [List.drop_append_of_le_length (by decide)]
    rw [show (S "commentary to=functions.f <|constrain|>json<|message|>" : List Char).drop
      (S "commentary").length = S " to=functions.f" ++ S " <|constrain|>json<|message|>"
      from by decide]
  have hTo := ppAfterTo_tool (S " <|constrain|>json<|message|>") c
    (by
      rw [takeWhile_append_of_ne c (by decide)]
      decide)
    (by
      rw [show (S " to=functions.f" ++ S " <|constrain|>json<|message|>" : List Char) =
        S " to=" ++ (S "functions.f" ++ S " <|constrain|>json<|message|>") from by decide]
      rw [List.append_assoc])
  have hTo2 : ppAfterTo (S " to=functions.f" ++ S " <|constrain|>json<|message|>" ++ c) =
      (S "functions.f", S " <|constrain|>json<|message|>" ++ c) := hTo
  have hcj := ppAfterConstrain_json c
  have hmsg := stripPre_msg_exact c
  generalize hq : (S "commentary to=functions.f <|constrain|>json<|message|>" ++ c) = q
    at h1 h2 ⊢
  simp only [parsePiece, h1, h2, hTo2, hcj, hmsg]
  rfl

theorem parsePiece_tool_raw (c : List Char) :
    parsePiece (S "commentary to=functions.f<|message|>" ++ c) =
      some ⟨S "commentary", S "functions.f", [], c⟩ := by
  have h1 : (S "commentary to=functions.f<|message|>" ++ c).takeWhile
      isPyWord = S "commentary" := by
    rw [takeWhile_append_of_ne c (by decide)]
    decide
  have h2 : (S "commentary to=functions.f<|message|>" ++ c).drop
      (S "commentary").length = S " to=functions.f" ++ S "<|message|>" ++ c := by
    rw [List.drop_append_of_le_length (by decide)]
    rw [show (S "commentary to=functions.f<|message|>" : List Char).drop
      (S "commentary").length = S " to=functions.f" ++ S "<|message|>"
      from by decide]
  have hTo2 : ppAfterTo (S " to=functions.f" ++ S "<|message|>" ++ c) =
      (S "functions.f", S "<|message|>" ++ c) :=
    ppAfterTo_tool (S "<|message|>") c
      (by
        rw [takeWhile_append_of_ne c (by decide)]
        decide)
      (by
        rw [show (S " to=functions.f" ++ S "<|message|>" : List Char) =
          S " to=" ++ (S "functions.f" ++ S "<|message|>") from by decide]
        rw [List.append_assoc])
  have hcm := ppAfterConstrain_msg c
  have hmsg := stripPre_msg_exact c
  generalize hq : (S "commentary to=functions.f<|message|>" ++ c) = q at h1 h2 ⊢
  simp only [parsePiece, h1, h2, hTo2, hcm, hmsg]
  rfl

theorem findRawSegs_single (p : List Char) (hp : hasOcc chMarker p = false) :
    findRawSegs (chMarker ++ p) = (parsePiece p).toList := by
  have h := findRawSegs_canonBuf [p]
    (by intro q hq; rw [List.mem_singleton.mp hq]; exact hp)
  have hcb : canonBuf [p] = chMarker ++ p := by
    show (chMarker ++ p) ++ [] = _
    rw [List.append_nil]
  rw [hcb] at h
  rw [h, List.filterMap_cons]
  cases parsePiece p <;> rfl

/-- C9 (amended): a commentary segment with recipient `functions.f`: with
a json constraint, empty (stripped) content yields the empty arguments
mapping, and nonempty content is decoded with fallback
`{raw: content}`; without the constraint the arguments mapping is always
`{raw: content}` — where content is the stripped content string. -/
theorem commentary_recipient_arguments (jdec : List Char → Option PyVal)
    (c : List Char) (hc : hasOcc chMarker c = false) :
    (parse_block jdec
        (S "<|channel|>commentary to=functions.f <|constrain|>json<|message|>" ++ c)).tool_calls =
      [⟨S "f",
        if pyStrip c = [] then PyVal.vDict []
        else
          match jdec (pyStrip c) with
          | some v => v
          | none => PyVal.vDict [(S "raw", PyVal.vStr (pyStrip c))]⟩] ∧
    (parse_block jdec
        (S "<|channel|>commentary to=functions.f<|message|>" ++ c)).tool_calls =
      [⟨S "f", PyVal.vDict [(S "raw", PyVal.vStr (pyStrip c))]⟩] := by
  constructor
  · have hb : (S "<|channel|>commentary to=functions.f <|constrain|>json<|message|>" ++ c) =
        chMarker ++ (S "commentary to=functions.f <|constrain|>json<|message|>" ++ c) := by
      rw [show (S "<|channel|>commentary to=functions.f <|constrain|>json<|message|>" :
        List Char) =
        chMarker ++ S "commentary to=functions.f <|constrain|>json<|message|>"
        from by decide]
      rw [List.append_assoc]
    rw [hb]
    unfold parse_block
    rw [findRawSegs_single _ (hasOcc_append_of_straddleFree chMarker_ne_nil
      (by decide) (by decide) hc)]
    rw [parsePiece_tool_json c]
    show (segStep jdec ⟨[], [], [], []⟩
      ⟨S "commentary", S "functions.f", S "json", c⟩).tool_calls = _
    unfold segStep
    dsimp only
    rw [if_neg (by decide), if_neg (by decide), if_pos (by decide),
      if_pos (by decide), if_pos (by decide)]
    show [] ++ [ToolCall.mk (removeSub (S "functions.") (pyStrip (S "functions.f")))
      (if pyStrip c ≠ [] then
        match jdec (pyStrip c) with
        | some v => v
        | none => PyVal.vDict [(S "raw", PyVal.vStr (pyStrip c))]
      else PyVal.vDict [])] = _
    rw [List.nil_append]
    rw [show removeSub (S "functions.") (pyStrip (S "functions.f")) = S "f"
      from by decide]
    rw [ite_not]
  · have hb : (S "<|channel|>commentary to=functions.f<|message|>" ++ c) =
        chMarker ++ (S "commentary to=functions.f<|message|>" ++ c) := by
      rw [show (S "<|channel|>commentary to=functions.f<|message|>" : List Char) =
        chMarker ++ S "commentary to=functions.f<|message|>" from by decide]
      rw [List.append_assoc]
    rw [hb]
    unfold parse_block
    rw [findRawSegs_single _ (hasOcc_append_of_straddleFree chMarker_ne_nil
      (by decide) (by decide) hc)]
    rw [parsePiece_tool_raw c]
    show (segStep jdec ⟨[], [], [], []⟩
      ⟨S "commentary", S "functions.f", [], c⟩).tool_calls = _
    unfold segStep
    dsimp only
    rw [if_neg (by decide), if_neg (by decide), if_pos (by decide),
      if_pos (by decide), if_neg (by decide)]
    show [] ++ [ToolCall.mk (removeSub (S "functions.") (pyStrip (S "functions.f")))
      (PyVal.vDict [(S "raw", PyVal.vStr (pyStrip c))])] = _
    rw [List.nil_append]
    rw [show removeSub (S "functions.") (pyStrip (S "functions.f")) = S "f"
      from by decide]

/-- C9 witness. -/
theorem commentary_recipient_arguments_witness :
    (parse_block jdecNone
        (S "<|channel|>commentary to=functions.f <|constrain|>json<|message|>" ++ S "hello")).tool_calls =
      [⟨S "f",
        if pyStrip (S "hello") = [] then PyVal.vDict []
        else
          match jdecNone (pyStrip (S "hello")) with
          | some v => v
          | none => PyVal.vDict [(S "raw", PyVal.vStr (pyStrip (S "hello")))]⟩] :=
  (commentary_recipient_arguments jdecNone (S "hello") (by decide)).1

theorem foldl_segStep_final (jdec : List Char → Option PyVal)
    (cs : List (List Char)) (acc : ParseRes) :
    (cs.map fun c => (⟨S "final", [], [], c⟩ : RawSeg)).foldl (segStep jdec) acc =
      { acc with final_message := acc.final_message ++ (cs.map pyStrip).flatten } := by
  induction cs generalizing acc with
  | nil =>
    show acc = _
    rw [show ((([] : List (List Char)).map pyStrip).flatten : List Char) = [] from rfl,
      List.append_nil]
  | cons c cs ih =>
    rw [List.map_cons, List.foldl_cons]
    have hstep : segStep jdec acc ⟨S "final", [], [], c⟩ =
        { acc with final_message := acc.final_message ++ pyStrip c } := by
      unfold segStep
      dsimp only
      rw [if_pos (by decide)]
    rw [hstep, ih]
    rw [List.map_cons, List.flatten_cons, ← List.append_assoc]

/-- C6 (amended): for a buffer made of final-channel segments (with
marker-free contents), the parsed final message is the concatenation of the
*stripped* segment contents, and flushing emits exactly that text when it
is nonempty (and nothing otherwise) — so e.g. a trailing block
`<|channel|>final<|message|> world` flushes `world`, not `" world"`. -/
theorem final_blocks_flush_stripped (cx : Ctx) (cs : List (List Char))
    (hcs : ∀ c ∈ cs, hasOcc chMarker c = false) :
    (parse_block cx.jdec
        (canonBuf (cs.map fun c => S "final<|message|>" ++ c))).final_message =
      (cs.map pyStrip).flatten ∧
    flush_harmony_buffer cx (canonBuf (cs.map fun c => S "final<|message|>" ++ c)) =
      if (cs.map pyStrip).flatten = [] then []
      else [Delta.content ((cs.map pyStrip).flatten)] := by
  have hparsed : parse_block cx.jdec
      (canonBuf (cs.map fun c => S "final<|message|>" ++ c)) =
      ⟨(cs.map pyStrip).flatten, [], [], []⟩ := by
    unfold parse_block
    rw [findRawSegs_canonBuf _ (by
      intro p hp
      obtain ⟨x, hx, rfl⟩ := List.mem_map.mp hp
      exact hasOcc_append_of_straddleFree chMarker_ne_nil (by decide) (by decide)
        (hcs x hx))]
    rw [List.filterMap_map]
    have hcomp : (parsePiece ∘ fun c => S "final<|message|>" ++ c) =
        fun c => some (⟨S "final", [], [], c⟩ : RawSeg) := by
      funext c
      exact parsePiece_final c
    rw [hcomp]
    rw [show (fun c => some ((⟨S "final", [], [], c⟩ : RawSeg))) =
      some ∘ (fun c => (⟨S "final", [], [], c⟩ : RawSeg)) from rfl]
    rw [List.filterMap_eq_map, foldl_segStep_final]
    rw [show ((⟨[], [], [], []⟩ : ParseRes).final_message : List Char) = [] from rfl]
    rw [List.nil_append]
  refine ⟨by rw [hparsed], ?_⟩
  cases cs with
  | nil =>
    show flush_harmony_buffer cx [] = _
    rw [show ((List.map pyStrip ([] : List (List Char))).flatten : List Char) = []
      from rfl]
    rfl
  | cons c cs' =>
    have hmem : '<' ∈ canonBuf ((c :: cs').map fun x => S "final<|message|>" ++ x) := by
      unfold canonBuf
      rw [List.map_cons, List.flatMap_cons]
      exact List.mem_append_left _ (List.mem_append_left _ (by decide))
    have hne : pyStrip
        (canonBuf ((c :: cs').map fun x => S "final<|message|>" ++ x)) ≠ [] :=
      pyStrip_ne_nil hmem (by decide)
    have hpb : processBlock cx
        (canonBuf ((c :: cs').map fun x => S "final<|message|>" ++ x)) =
        if ((c :: cs').map pyStrip).flatten = [] then none
        else some (Delta.content (((c :: cs').map pyStrip).flatten)) := by
      simp only [processBlock]
      rw [hparsed]
      dsimp only
      rw [if_neg (by decide), ite_not]
    unfold flush_harmony_buffer
    rw [if_neg hne, hpb]
    by_cases hP : ((c :: cs').map pyStrip).flatten = []
    · rw [if_pos hP, if_pos hP]
    · rw [if_neg hP, if_neg hP]

/-- C6 witness. -/
theorem final_blocks_flush_stripped_witness :
    (∀ c ∈ [S " Hello ", S " world"], hasOcc chMarker c = false) ∧
    flush_harmony_buffer ctxX
        (canonBuf ([S " Hello ", S " world"].map fun c => S "final<|message|>" ++ c)) =
      if ([S " Hello ", S " world"].map pyStrip).flatten = [] then []
      else [Delta.content (([S " Hello ", S " world"].map pyStrip).flatten)] :=
  ⟨by decide,
   (final_blocks_flush_stripped ctxX [S " Hello ", S " world"] (by decide)).2⟩
